import Mathlib

/-!
# Verification of the P-256 ECC core (Crypto/PublicKey/ECC.py)

This file gives a shallow embedding in Lean 4 of the elliptic-curve arithmetic
core found in `src/lib/Crypto/PublicKey/ECC.py`: the P-256 curve constants, the
affine point type with its group operations (negation, doubling, addition,
windowed-NAF scalar multiplication with a precomputed table of odd multiples),
and the raw ECDSA primitives `_sign` and `_verify` of `EccKey`.

Python integers are modelled as `Int`; Python `%` on a positive modulus agrees
with `Int.emod`.  Fallible operations (Python exceptions) are modelled with
`Except EccError`.  Loops are modelled by fuel-based structural recursion with
provably sufficient fuel.  The arbitrary-precision `Integer.inverse` method
comes from `Crypto/Math/Numbers.py`, which is not part of the sources here, so
it is modelled from the spec (see `inverse` below).
-/

namespace ECC

/-- `_curve.p`: the prime modulus of the P-256 base field. -/
def curve_p : Nat := 115792089210356248762697446949407573530086143415290314195533631308867097853951

/-- `_curve.order`: the order of the base point subgroup. -/
def curve_order : Nat := 115792089210356248762697446949407573529996955224135760342422259061068512044369

/-- `_curve.Gx`: x-coordinate of the base point. -/
def curve_Gx : Nat := 0x6b17d1f2e12c4247f8bce6e563a440f277037d812deb33a0f4a13945d898c296

/-- `_curve.Gy`: y-coordinate of the base point. -/
def curve_Gy : Nat := 0x4fe342e2fe1a7f9b8ee7eb4a7c0f9e162bce33576b315ececbb6406837bf51f5

/-- The abstract kinds of Python exceptions the embedded code can raise.

* `pointAtInfinityAccess`: `ValueError("Point at infinity")` from the `.x`/`.y`
  accessors.
* `invalidScalar`: `ValueError("Scalar multiplication only defined for
  non-negative integers")`.
* `noInverse`: the failure raised by `Integer.inverse` when the value is not
  invertible modulo the modulus.
* `typeErrorNone`: the `TypeError` raised by Python when arithmetic is applied
  to `None` (e.g. `z + self._d * r` with `self._d is None` in `_sign`).
* `assertionFailed`: failure of `assert 0 < k < _curve.order` in `_sign`.
* `missingComponent`: `ValueError` from the `EccKey` constructor when neither
  component is given (modelled for completeness).
* `notPrivate`: `ValueError("This is not a private ECC key")` from the `.d`
  property. -/
inductive EccError where
  | pointAtInfinityAccess
  | invalidScalar
  | noInverse
  | typeErrorNone
  | assertionFailed
  | missingComponent
  | notPrivate
deriving DecidableEq

/-- `EccPoint`: an affine point, holding the two integer fields `_x` and `_y`.
The point at infinity is encoded as the coordinate pair `(0, 0)`. -/
structure EccPoint where
  x : Int
  y : Int
deriving DecidableEq

instance {ε α : Type} [DecidableEq ε] [DecidableEq α] : DecidableEq (Except ε α) := fun x y =>
  match x, y with
  | .ok a, .ok b =>
    if h : a = b then .isTrue (by rw [h]) else .isFalse (fun hc => h (Except.ok.inj hc))
  | .error a, .error b =>
    if h : a = b then .isTrue (by rw [h]) else .isFalse (fun hc => h (Except.error.inj hc))
  | .ok _, .error _ => .isFalse (fun hc => Except.noConfusion hc)
  | .error _, .ok _ => .isFalse (fun hc => Except.noConfusion hc)

/-- `EccPoint.point_at_infinity()`: the `(0, 0)` sentinel. -/
def point_at_infinity : EccPoint := ⟨0, 0⟩

/-- `EccPoint.is_point_at_infinity()`: `self._x == 0 and self._y == 0`. -/
def is_point_at_infinity (P : EccPoint) : Bool := P.x == 0 && P.y == 0

/-- `EccPoint.__eq__`: `self._x == point._x and self._y == point._y`.
Equality reads only the two coordinates (never any cached data). -/
def pyEq (P Q : EccPoint) : Bool := P.x == Q.x && P.y == Q.y

/-- `EccPoint.__neg__`. -/
def neg (P : EccPoint) : EccPoint :=
  if is_point_at_infinity P then point_at_infinity
  else ⟨P.x, (curve_p : Int) - P.y⟩

/-- `EccPoint.copy()`: a fresh point with the same coordinates. -/
def copy (P : EccPoint) : EccPoint := ⟨P.x, P.y⟩

/-- `EccPoint.x` property: raises `ValueError` on the infinity sentinel. -/
def xCoord (P : EccPoint) : Except EccError Int :=
  if is_point_at_infinity P then .error .pointAtInfinityAccess else .ok P.x

/-- `EccPoint.y` property: raises `ValueError` on the infinity sentinel. -/
def yCoord (P : EccPoint) : Except EccError Int :=
  if is_point_at_infinity P then .error .pointAtInfinityAccess else .ok P.y

/-- One Euclidean step per unit of fuel.  State `(r0, r1, s0, s1)` with the
invariant `r0 ≡ s0 * a` and `r1 ≡ s1 * a (mod m)`; terminates when `r1 = 0`,
returning `(gcd, Bézout coefficient of a)`. -/
def egcdLoop : Nat → Nat → Nat → Int → Int → Nat × Int
  | 0, r0, _, s0, _ => (r0, s0)
  | fuel+1, r0, r1, s0, s1 =>
    if r1 = 0 then (r0, s0)
    else egcdLoop fuel r1 (r0 % r1) s1 (s0 - ((r0 / r1 : Nat) : Int) * s1)

/-- Modelled from the spec: the arbitrary-precision big-integer method
`Integer.inverse(modulus)` (from `Crypto/Math/Numbers.py`, which is not among
the sources), described in the spec as "modular inverse (`inverse(modulus)`,
fails if not invertible)".  The argument is first reduced into `[0, m)` and the
inverse is computed by the extended Euclidean algorithm; the result is the
unique inverse in `[0, m)`, and `none` models the raised error when the value
is not invertible. -/
def inverse (a : Int) (m : Nat) : Option Nat :=
  let a0 := (a % (m : Int)).toNat
  let r := egcdLoop (m + 2) a0 m 1 0
  if r.1 = 1 then some ((r.2 % (m : Int)).toNat) else none

/-- The normalisation loop `while x3 < 0: x3 += _curve.p`, fuel-based. -/
def whileAddP : Nat → Int → Int
  | 0, x => x
  | fuel+1, x => if x < 0 then whileAddP fuel (x + (curve_p : Int)) else x

/-- Fuel that provably suffices for `whileAddP` (the loop adds `p ≥ 1` at each
iteration, so `(-x).toNat + 1` iterations always reach a non-negative value). -/
def normFuel (x : Int) : Nat := (-x).toNat + 1

/-- `EccPoint.double()`: tangent-rule doubling; `y == 0` gives infinity. -/
def double (P : EccPoint) : Except EccError EccPoint :=
  if P.y == 0 then .ok point_at_infinity
  else
    -- common = (pow(self._x, 2, p) * 3 - 3) * (self._y << 1).inverse(p) % p
    match inverse (P.y * 2) curve_p with
    | none => .error .noInverse
    | some inv =>
      let common := ((P.x ^ 2 % (curve_p : Int)) * 3 - 3) * (inv : Int) % (curve_p : Int)
      -- x3 = pow(common, 2, p) - 2 * x, then add p until non-negative
      let x3i := common ^ 2 % (curve_p : Int) - P.x - P.x
      let x3 := whileAddP (normFuel x3i) x3i
      -- y3 = ((x - x3) * common - y) % p
      let y3 := ((P.x - x3) * common - P.y) % (curve_p : Int)
      .ok ⟨x3, y3⟩

/-- `EccPoint.add(point)`: chord rule with the special cases checked in the
source's order (infinity, equal points, equal x-coordinates). -/
def add (P Q : EccPoint) : Except EccError EccPoint :=
  if is_point_at_infinity P then .ok (copy Q)
  else if is_point_at_infinity Q then .ok (copy P)
  else if P = Q then double P
  else if P.x == Q.x then .ok point_at_infinity
  else
    -- common = (point._y - self._y) * (point._x - self._x).inverse(p) % p
    match inverse (Q.x - P.x) curve_p with
    | none => .error .noInverse
    | some inv =>
      let common := (Q.y - P.y) * (inv : Int) % (curve_p : Int)
      let x3i := common ^ 2 % (curve_p : Int) - P.x - Q.x
      let x3 := whileAddP (normFuel x3i) x3i
      let y3 := ((P.x - x3) * common - P.y) % (curve_p : Int)
      .ok ⟨x3, y3⟩

/-- The width-4 NAF recoding loop of `multiply`, fuel-based, producing digits
least-significant first (the source reverses the list afterwards).  With
`WINDOW_BITS = 4`: `window_high = 16`, `window_low = 8`, `window_mask = 15`. -/
def nafLoop : Nat → Nat → List Int
  | 0, _ => []
  | fuel+1, s =>
    if s = 0 then []
    else
      let di : Int :=
        if s % 2 = 1 then
          let w : Nat := s &&& 15
          if 8 ≤ w then (w : Int) - 16 else (w : Int)
        else 0
      let s2 : Nat := ((s : Int) - di).toNat / 2
      di :: nafLoop fuel s2

/-- The precomputed table `[0, 1P, 2P, 3P, 0, 5P, 0, 7P]` extended with the
negatives of its entries `7P .. 1P` (`precomp += [-x for x in precomp[:0:-1]]`).
The Python code stores the *integer* `0` at indices 0, 4 and 6; those slots are
never read (the main loop only indexes with non-zero NAF digits, which are odd),
and we put the `(0, 0)` sentinel in their place, which is fixed by negation just
as `-0 == 0` is. -/
def precompute (P : EccPoint) : Except EccError (List EccPoint) := do
  let p2 ← double P
  let p3 ← add p2 P
  let p5 ← add p2 p3
  let p7 ← add p2 p5
  let base := [point_at_infinity, P, p2, p3, point_at_infinity, p5, point_at_infinity, p7]
  pure (base ++ (base.drop 1).reverse.map neg)

/-- Python list indexing `l[i]`, where a negative index counts from the end. -/
def pyIndex (l : List EccPoint) (i : Int) : EccPoint :=
  if i < 0 then l.getD ((l.length : Int) + i).toNat point_at_infinity
  else l.getD i.toNat point_at_infinity

/-- The accumulation loop of `multiply`: double, then add the table entry for
each non-zero digit, most-significant digit first. -/
def nafFold (pre : List EccPoint) : List Int → EccPoint → Except EccError EccPoint
  | [], acc => .ok acc
  | d :: rest, acc => do
    let acc2 ← double acc
    let acc3 ← if d ≠ 0 then add acc2 (pyIndex pre d) else pure acc2
    nafFold pre rest acc3

/-- `EccPoint.multiply(scalar)`: raises on a negative scalar, returns infinity
for `0` or an infinite base, a copy for `1`, and otherwise runs the width-4
signed-window NAF algorithm over the precomputed odd multiples. -/
def multiply (P : EccPoint) (scalar : Int) : Except EccError EccPoint :=
  if scalar < 0 then .error .invalidScalar
  else if scalar == 0 || is_point_at_infinity P then .ok point_at_infinity
  else if scalar == 1 then .ok (copy P)
  else do
    let naf := (nafLoop scalar.toNat scalar.toNat).reverse
    let pre ← precompute P
    nafFold pre naf point_at_infinity

/-- `_curve.G`. -/
def curve_G : EccPoint := ⟨(curve_Gx : Int), (curve_Gy : Int)⟩

/-- A Python `EccPoint` object together with its optional `_precomp` attribute:
the attribute does not exist until the first scalar multiplication with
`scalar ≥ 2` attaches it (`self._precomp = precomp`). -/
structure EccPointObj where
  pt : EccPoint
  precomp : Option (List EccPoint)
deriving DecidableEq

/-- `EccPoint.multiply` at the object level: reads the cached `_precomp` table
when the attribute exists (`hasattr(self, "_precomp")`), otherwise computes it
and attaches it to the object.  Returns the product together with the state of
`self` after the call; the trivial branches return before the cache logic. -/
def multiplyObj (P : EccPointObj) (scalar : Int) :
    Except EccError (EccPoint × EccPointObj) :=
  if scalar < 0 then .error .invalidScalar
  else if scalar == 0 || is_point_at_infinity P.pt then .ok (point_at_infinity, P)
  else if scalar == 1 then .ok (copy P.pt, P)
  else do
    let naf := (nafLoop scalar.toNat scalar.toNat).reverse
    let pre ← match P.precomp with
      | some pre => pure pre
      | none => precompute P.pt
    let result ← nafFold pre naf point_at_infinity
    pure (result, ⟨P.pt, some pre⟩)

/-- `EccKey`: the private scalar `_d` and/or the public point `_point`
(`None` when absent).  The `curve` string, validated to equal `"P-256"` by the
constructor, carries no further information and is omitted here. -/
structure EccKey where
  d : Option Int
  point : Option EccPoint

/-- `EccKey.has_private()`. -/
def has_private (k : EccKey) : Bool := k.d.isSome

/-- `EccKey.pointQ` property: the supplied public point, or `d·G` derived on
demand (the memoisation of the derived point is value-invariant and omitted). -/
def pointQ (k : EccKey) : Except EccError EccPoint :=
  match k.point with
  | some q => .ok q
  | none =>
    match k.d with
    | some d => multiply curve_G d
    | none => .error .typeErrorNone

/-- `EccKey._sign(z, k)`:
`assert 0 < k < order`;
`r = G.multiply(k).x % order`;
`s = k.inverse(order) * (z + self._d * r) % order`.
With `self._d` equal to `None` (public-only key) the expression
`z + self._d * r` raises a `TypeError`; the factors of `s` are evaluated left
to right, so the inverse runs first. -/
def sign (key : EccKey) (z k : Int) : Except EccError (Int × Int) :=
  if ¬(0 < k ∧ k < (curve_order : Int)) then .error .assertionFailed
  else do
    let gk ← multiply curve_G k
    let rx ← xCoord gk
    let r := rx % (curve_order : Int)
    match inverse k curve_order with
    | none => .error .noInverse
    | some kinv =>
      match key.d with
      | none => .error .typeErrorNone
      | some d =>
        let s := (kinv : Int) * (z + d * r) % (curve_order : Int)
        .ok (r, s)

/-- `EccKey._verify(z, rs)`:
`sinv = rs[1].inverse(order)`;
`point1 = G.multiply(sinv * z % order)`;
`point2 = pointQ.multiply(sinv * rs[0] % order)`;
`return (point1.add(point2)).x == rs[0]`.
Note that the final comparison uses the raw `.x` accessor (which raises on the
point at infinity) and does not reduce the x-coordinate modulo the order. -/
def verify (key : EccKey) (z : Int) (rs : Int × Int) : Except EccError Bool :=
  match inverse rs.2 curve_order with
  | none => .error .noInverse
  | some sinv => do
    let point1 ← multiply curve_G ((sinv : Int) * z % (curve_order : Int))
    let q ← pointQ key
    let point2 ← multiply q ((sinv : Int) * rs.1 % (curve_order : Int))
    let R ← add point1 point2
    let xR ← xCoord R
    pure (xR == rs.1)

/-- Modelled from the spec: "naive double-and-add scalar multiplication", the
reference algorithm the spec requires `multiply` to agree with.  Processing the
bits of `k` most-significant first, double the accumulator and add `P` when the
bit is set — equivalently, recursively: `naive 0 = ∞` and
`naive k = double (naive (k / 2)) + (k % 2) · P`. -/
def naiveDoubleAdd (P : EccPoint) (k : Nat) : Except EccError EccPoint :=
  if k = 0 then .ok point_at_infinity
  else do
    let r ← naiveDoubleAdd P (k / 2)
    let r2 ← double r
    if k % 2 = 1 then add r2 P else pure r2
decreasing_by exact Nat.div_lt_self (Nat.pos_of_ne_zero (by assumption)) (by omega)

/-- The coordinates of a point lie in the field range `[0, p)`. -/
def inRange (P : EccPoint) : Prop :=
  0 ≤ P.x ∧ P.x < (curve_p : Int) ∧ 0 ≤ P.y ∧ P.y < (curve_p : Int)

instance (P : EccPoint) : Decidable (inRange P) := by
  unfold inRange; infer_instance

/-- A result of `double`/`add`/`multiply` is either an error or an in-range point. -/
def okInRange : Except EccError EccPoint → Prop
  | .ok R => inRange R
  | .error _ => True

instance (r : Except EccError EccPoint) : Decidable (okInRange r) := by
  unfold okInRange; cases r <;> infer_instance

end ECC

namespace ECC

/-! ### Basic arithmetic facts about the embedded helpers -/

theorem curve_p_posN : 0 < curve_p := by decide

theorem curve_p_pos : (0 : Int) < (curve_p : Int) := by
  exact_mod_cast curve_p_posN

theorem curve_p_one_lt : 1 < curve_p := by decide

/-- The fuel-indexed normalisation loop computes the canonical representative:
it leaves non-negative input unchanged and is plain `emod` on negative input. -/
theorem whileAddP_spec : ∀ (f : Nat) (x : Int), (-x).toNat ≤ f * curve_p →
    whileAddP f x = if x < 0 then x % (curve_p : Int) else x := by
  intro f
  induction f with
  | zero =>
    intro x hx
    simp only [Nat.zero_mul, Nat.le_zero, Int.toNat_eq_zero, Left.nonneg_neg_iff] at hx
    rw [whileAddP, if_neg (by omega)]
  | succ f ih =>
    intro x hx
    have hemod : (x + (curve_p : Int)) % (curve_p : Int) = x % (curve_p : Int) := by
      have h := Int.add_mul_emod_self_left (a := x) (b := (curve_p : Int)) (c := 1)
      rwa [mul_one] at h
    rw [whileAddP]
    by_cases hneg : x < 0
    · rw [if_pos hneg, if_pos hneg, ih (x + (curve_p : Int))]
      · by_cases hneg2 : x + (curve_p : Int) < 0
        · rw [if_pos hneg2, hemod]
        · rw [if_neg hneg2]
          rw [← hemod, Int.emod_eq_of_lt (by omega) (by have := curve_p_pos; omega)]
      · have h2 : 0 < (curve_p : Int) := curve_p_pos
        have hsplit : (f + 1) * curve_p = f * curve_p + curve_p := by ring
        omega
    · rw [if_neg hneg, if_neg hneg]

theorem normFuel_sufficient (x : Int) : (-x).toNat ≤ normFuel x * curve_p := by
  unfold normFuel
  have := curve_p_posN
  calc (-x).toNat ≤ (-x).toNat * curve_p := Nat.le_mul_of_pos_right _ this
  _ ≤ ((-x).toNat + 1) * curve_p := Nat.mul_le_mul_right _ (Nat.le_succ _)

theorem whileAddP_norm (x : Int) :
    whileAddP (normFuel x) x = if x < 0 then x % (curve_p : Int) else x :=
  whileAddP_spec _ x (normFuel_sufficient x)

/-- The normalised value is in `[0, p)` as soon as the input is below `p`. -/
theorem whileAddP_range {x : Int} (hx : x < (curve_p : Int)) :
    0 ≤ whileAddP (normFuel x) x ∧ whileAddP (normFuel x) x < (curve_p : Int) := by
  rw [whileAddP_norm]
  by_cases h : x < 0
  · rw [if_pos h]
    exact ⟨Int.emod_nonneg x (by have := curve_p_pos; omega),
      Int.emod_lt_of_pos x curve_p_pos⟩
  · rw [if_neg h]; omega

/-- The normalised value is congruent to the input modulo `p`. -/
theorem whileAddP_emod (x : Int) :
    whileAddP (normFuel x) x % (curve_p : Int) = x % (curve_p : Int) := by
  rw [whileAddP_norm]
  by_cases h : x < 0
  · rw [if_pos h, Int.emod_emod_of_dvd _ dvd_rfl]
  · rw [if_neg h]

/-- `egcdLoop` returns the gcd of its two running values (given enough fuel). -/
theorem egcdLoop_gcd : ∀ (fuel r0 r1 : Nat) (s0 s1 : Int), r1 ≤ fuel →
    (egcdLoop fuel r0 r1 s0 s1).1 = Nat.gcd r1 r0 := by
  intro fuel
  induction fuel with
  | zero =>
    intro r0 r1 s0 s1 h
    have hz : r1 = 0 := Nat.le_zero.mp h
    subst hz
    rw [egcdLoop, Nat.gcd_zero_left]
  | succ fuel ih =>
    intro r0 r1 s0 s1 h
    rw [egcdLoop]
    by_cases h1 : r1 = 0
    · rw [if_pos h1, h1, Nat.gcd_zero_left]
    · rw [if_neg h1, ih _ _ _ _ (by have := Nat.mod_lt r0 (y := r1) (by omega); omega)]
      rw [Nat.gcd_rec r1 r0]

/-- Bézout invariant of `egcdLoop`: if both running remainders are congruent to
multiples of `a` mod `m`, so is the returned gcd, with the returned coefficient. -/
theorem egcdLoop_bezout : ∀ (fuel r0 r1 : Nat) (s0 s1 : Int) (a : Int) (m : Nat),
    Int.ModEq (m : Int) (r0 : Int) (s0 * a) → Int.ModEq (m : Int) (r1 : Int) (s1 * a) →
    Int.ModEq (m : Int) ((egcdLoop fuel r0 r1 s0 s1).1 : Int)
      ((egcdLoop fuel r0 r1 s0 s1).2 * a) := by
  intro fuel
  induction fuel with
  | zero => intro r0 r1 s0 s1 a m h0 h1; rw [egcdLoop]; exact h0
  | succ fuel ih =>
    intro r0 r1 s0 s1 a m h0 h1
    rw [egcdLoop]
    by_cases hz : r1 = 0
    · rw [if_pos hz]; exact h0
    · rw [if_neg hz]
      refine ih _ _ _ _ _ _ h1 ?_
      have hsub : ((r0 % r1 : Nat) : Int) =
          (r0 : Int) - (r1 : Int) * ((r0 / r1 : Nat) : Int) := by
        have h := congrArg (fun n : Nat => (n : Int)) (Nat.mod_add_div r0 r1)
        push_cast at h ⊢
        omega
      rw [hsub]
      have h4 : s0 * a - s1 * a * ((r0 / r1 : Nat) : Int) =
          (s0 - ((r0 / r1 : Nat) : Int) * s1) * a := by ring
      rw [← h4]
      exact h0.sub (h1.mul_right ((r0 / r1 : Nat) : Int))

/-- Soundness of the modelled `Integer.inverse`: a returned value is below the
modulus and is a genuine modular inverse. -/
theorem inverse_some_spec {a : Int} {m v : Nat} (hm : 1 < m)
    (h : inverse a m = some v) : v < m ∧ (a * (v : Int)) % (m : Int) = 1 := by
  have hmI : (1 : Int) < (m : Int) := by exact_mod_cast hm
  simp only [inverse] at h
  set a0 : Nat := (a % (m : Int)).toNat with ha0
  set r := egcdLoop (m + 2) a0 m 1 0 with hr
  by_cases hone : r.1 = 1
  · rw [if_pos hone] at h
    have hbez := egcdLoop_bezout (m + 2) a0 m 1 0 a m ?inv0 ?inv1
    case inv0 =>
      have hnn : 0 ≤ a % (m : Int) := Int.emod_nonneg a (by omega)
      have : ((a0 : Nat) : Int) = a % (m : Int) := Int.toNat_of_nonneg hnn
      rw [this, one_mul]
      exact Int.emod_emod_of_dvd a dvd_rfl
    case inv1 =>
      rw [zero_mul]
      unfold Int.ModEq
      simp
    rw [← hr] at hbez
    rw [hone] at hbez
    have hv : v = (r.2 % (m : Int)).toNat := (Option.some.inj h).symm
    have hv2 : ((v : Nat) : Int) = r.2 % (m : Int) := by
      rw [hv]
      exact Int.toNat_of_nonneg (Int.emod_nonneg r.2 (by omega))
    constructor
    · have : r.2 % (m : Int) < m := Int.emod_lt_of_pos r.2 (by omega)
      omega
    · have hcong : Int.ModEq (m : Int) (a * (v : Int)) 1 := by
        calc a * (v : Int) = (v : Int) * a := by ring
          _ ≡ (r.2 % (m : Int)) * a [ZMOD (m : Int)] := by rw [hv2]
          _ ≡ r.2 * a [ZMOD (m : Int)] := by
              exact Int.ModEq.mul_right a (Int.emod_emod_of_dvd r.2 dvd_rfl)
          _ ≡ 1 [ZMOD (m : Int)] := by
              exact (hbez.symm.trans (by norm_num))
      have := hcong
      unfold Int.ModEq at this
      rwa [Int.emod_eq_of_lt (by norm_num) hmI] at this
  · rw [if_neg hone] at h
    exact absurd h (by simp)

/-- Sound failure: when the modelled `Integer.inverse` succeeds there is a
modular inverse, so if no integer multiplies with `a` to 1 mod `m` it fails. -/
theorem inverse_spec_of_mul {a : Int} {m v : Nat} (hm : 1 < m)
    (h : inverse a m = some v) : ∃ w : Nat, (a * (w : Int)) % (m : Int) = 1 :=
  ⟨v, (inverse_some_spec hm h).2⟩

/-- There is some inverse of `t` below the modulus. -/
def HasInv (t : Int) (m : Nat) : Prop := ∃ v : Nat, (t * (v : Int)) % (m : Int) = 1

/-- The modelled `inverse` fails exactly when no modular inverse exists. -/
theorem inverse_none_iff {a : Int} {m : Nat} (hm : 1 < m) :
    inverse a m = none ↔ ¬ HasInv a m := by
  constructor
  · intro hnone hinv
    obtain ⟨v, hv⟩ := hinv
    simp only [inverse] at hnone
    set a0 : Nat := (a % (m : Int)).toNat with ha0
    set r := egcdLoop (m + 2) a0 m 1 0 with hr
    by_cases hone : r.1 = 1
    · rw [if_pos hone] at hnone; exact absurd hnone (by simp)
    · -- the returned first component is the gcd of `m` and `a0`
      have hgcd : r.1 = Nat.gcd m a0 :=
        egcdLoop_gcd (m + 2) a0 m 1 0 (by omega)
      -- a Bézout combination worth 1 forces that gcd to be 1
      have hdvd1 : (Nat.gcd m a0 : Int) ∣ 1 := by
        have hd1 : (Nat.gcd m a0 : Int) ∣ (m : Int) := by
          exact_mod_cast Int.natCast_dvd_natCast.mpr (Nat.gcd_dvd_left m a0)
        have hd2 : (Nat.gcd m a0 : Int) ∣ (a0 : Int) := by
          exact_mod_cast Int.natCast_dvd_natCast.mpr (Nat.gcd_dvd_right m a0)
        have ha0a : ((a0 : Nat) : Int) = a % (m : Int) :=
          Int.toNat_of_nonneg (Int.emod_nonneg a (by omega))
        -- a * v - 1 is a multiple of m, and a ≡ a0 mod m
        have hmod : Int.ModEq (m : Int) (a * (v : Int)) 1 := by
          unfold Int.ModEq
          rw [hv, Int.emod_eq_of_lt (by norm_num) (by exact_mod_cast hm)]
        have hdvdm : (m : Int) ∣ (a * v - 1) := (Int.modEq_iff_dvd.mp hmod.symm)
        have hACong : Int.ModEq (m : Int) ((a0 : Int) * v) (a * v) := by
          exact Int.ModEq.mul_right _ (by rw [ha0a]; exact Int.emod_emod_of_dvd a dvd_rfl)
        have hdvdm2 : (m : Int) ∣ ((a0 : Int) * v - 1) := by
          have h1 : (m : Int) ∣ (a * v - (a0 : Int) * v) := Int.modEq_iff_dvd.mp hACong
          have h2 := dvd_add h1 hdvdm
          have h3 : a * (v : Int) - (a0 : Int) * v + (a * v - 1) =
              2 * (a * (v : Int)) - ((a0 : Int) * v + 1) := by ring
          -- direct: a0*v - 1 = (a*v - 1) - (a*v - a0*v)
          have h4 : (a0 : Int) * v - 1 = (a * v - 1) - (a * v - (a0 : Int) * v) := by ring
          rw [h4]
          exact dvd_sub hdvdm h1
        calc (Nat.gcd m a0 : Int) ∣ ((a0 : Int) * v - ((a0 : Int) * v - 1)) := by
              exact dvd_sub (hd2.mul_right v) (dvd_trans hd1 hdvdm2)
          _ = 1 := by ring
      have : Nat.gcd m a0 = 1 := by
        have := Int.le_of_dvd (by norm_num) hdvd1
        have hpos : 0 < Nat.gcd m a0 ∨ Nat.gcd m a0 = 0 := by omega
        rcases hpos with hp | hp
        · omega
        · rw [hp] at hdvd1; norm_num at hdvd1
      exact hone (by rw [hgcd]; exact this)
  · intro hninv
    cases hcase : inverse a m with
    | none => rfl
    | some v =>
      exact absurd ⟨v, (inverse_some_spec hm hcase).2⟩ hninv

/-- An invertible element stays invertible after negation. -/
theorem HasInv.negSelf {t : Int} {m : Nat} (hm : 1 < m) (h : HasInv t m) :
    HasInv (-t) m := by
  obtain ⟨v, hv⟩ := h
  refine ⟨(((m : Int) - (v : Int)) % (m : Int)).toNat, ?_⟩
  have hnn : 0 ≤ ((m : Int) - (v : Int)) % (m : Int) :=
    Int.emod_nonneg _ (by omega)
  rw [Int.toNat_of_nonneg hnn]
  have hcong : Int.ModEq (m : Int) (-t * (((m : Int) - (v : Int)) % (m : Int))) 1 := by
    calc -t * (((m : Int) - (v : Int)) % (m : Int))
        ≡ -t * ((m : Int) - (v : Int)) [ZMOD (m : Int)] :=
          Int.ModEq.mul_left _ (Int.emod_emod_of_dvd _ dvd_rfl)
      _ ≡ t * (v : Int) - t * m [ZMOD (m : Int)] := by
          have : -t * ((m : Int) - (v : Int)) = t * (v : Int) - t * m := by ring
          rw [this]
      _ ≡ t * (v : Int) [ZMOD (m : Int)] := by
          have : (m : Int) ∣ (t * (v : Int) - (t * (v : Int) - t * m)) := by
            have : t * (v : Int) - (t * (v : Int) - t * m) = m * t := by ring
            rw [this]; exact Dvd.intro t rfl
          exact (Int.modEq_iff_dvd.mpr (by
            have h4 : t * (v : Int) - (t * v - t * m) = m * t := by ring
            rw [h4]; exact Dvd.intro t rfl))
      _ ≡ 1 [ZMOD (m : Int)] := by
          unfold Int.ModEq
          rw [hv, Int.emod_eq_of_lt (by norm_num) (by exact_mod_cast hm)]
  unfold Int.ModEq at hcong
  rw [show (1 : Int) % (m : Int) = 1 from
    Int.emod_eq_of_lt (by norm_num) (by exact_mod_cast hm)] at hcong
  exact hcong

/-- Inverses are unique below the modulus. -/
theorem inverse_unique {m : Nat} (hm : 1 < m) {t : Int} {v w : Nat}
    (hv : v < m) (hw : w < m)
    (h1 : (t * (v : Int)) % (m : Int) = 1) (h2 : (t * (w : Int)) % (m : Int) = 1) :
    v = w := by
  have hmI : (1 : Int) < (m : Int) := by exact_mod_cast hm
  have e1 : Int.ModEq (m : Int) (t * (v : Int)) 1 := by
    unfold Int.ModEq; rw [h1, Int.emod_eq_of_lt (by norm_num) hmI]
  have e2 : Int.ModEq (m : Int) (t * (w : Int)) 1 := by
    unfold Int.ModEq; rw [h2, Int.emod_eq_of_lt (by norm_num) hmI]
  have chain : Int.ModEq (m : Int) ((v : Int)) ((w : Int)) := by
    calc (v : Int) ≡ (v : Int) * (t * (w : Int)) [ZMOD (m : Int)] := by
          have := (e2.mul_left (v : Int)).symm
          simpa using this
      _ = (t * (v : Int)) * (w : Int) := by ring
      _ ≡ 1 * (w : Int) [ZMOD (m : Int)] := e1.mul_right _
      _ = (w : Int) := by ring
  unfold Int.ModEq at chain
  rw [Int.emod_eq_of_lt (by positivity) (by exact_mod_cast hv),
    Int.emod_eq_of_lt (by positivity) (by exact_mod_cast hw)] at chain
  exact_mod_cast chain

/-- Negating the argument of a successful `inverse` yields the complementary
inverse `m - v`. -/
theorem inverse_neg_of_some {t : Int} {m v : Nat} (hm : 1 < m)
    (h : inverse t m = some v) : inverse (-t) m = some (m - v) := by
  obtain ⟨hvlt, hvmul⟩ := inverse_some_spec hm h
  have hv0 : v ≠ 0 := by
    intro h0
    rw [h0] at hvmul
    simp only [Nat.cast_zero, mul_zero, Int.zero_emod] at hvmul
    norm_num at hvmul
  -- -t is invertible, so `inverse` succeeds on it
  have hinv : HasInv (-t) m := HasInv.negSelf hm ⟨v, hvmul⟩
  cases hcase : inverse (-t) m with
  | none => exact absurd hinv ((inverse_none_iff hm).mp hcase)
  | some w =>
    obtain ⟨hwlt, hwmul⟩ := inverse_some_spec hm hcase
    have hcomp : (-t * ((m - v : Nat) : Int)) % (m : Int) = 1 := by
      have hcast : ((m - v : Nat) : Int) = (m : Int) - (v : Int) := by
        have : v ≤ m := le_of_lt hvlt
        omega
      rw [hcast]
      have hcong : Int.ModEq (m : Int) (-t * ((m : Int) - (v : Int))) (t * (v : Int)) := by
        have heq : -t * ((m : Int) - (v : Int)) - t * (v : Int) = (m : Int) * (-t) := by ring
        exact Int.ModEq.symm (Int.modEq_iff_dvd.mpr (by
          have h4 : -t * ((m : Int) - (v : Int)) - t * (v : Int) = (m : Int) * (-t) := by ring
          rw [h4]; exact Dvd.intro (-t) rfl))
      unfold Int.ModEq at hcong
      rw [hcong, hvmul]
    have : w = m - v :=
      inverse_unique hm hwlt (by omega) hwmul hcomp
    rw [this]

/-- Every successful result of `double` on an in-range point is in range. -/
theorem double_inRange {P : EccPoint} (hP : inRange P) : okInRange (double P) := by
  unfold double
  by_cases hy : (P.y == 0) = true
  · rw [if_pos hy]
    exact ⟨le_refl 0, curve_p_pos, le_refl 0, curve_p_pos⟩
  · rw [if_neg hy]
    cases hinv : inverse (P.y * 2) curve_p with
    | none => trivial
    | some inv =>
      obtain ⟨hPx0, hPxp, hPy0, hPyp⟩ := hP
      have hc : (((P.x ^ 2 % (curve_p : Int)) * 3 - 3) * (inv : Int) % (curve_p : Int)) ^ 2 %
          (curve_p : Int) < (curve_p : Int) :=
        Int.emod_lt_of_pos _ curve_p_pos
      refine ⟨(whileAddP_range (by omega)).1, (whileAddP_range (by omega)).2,
        Int.emod_nonneg _ (by have := curve_p_pos; omega), Int.emod_lt_of_pos _ curve_p_pos⟩

/-- Every successful result of `add` on in-range points is in range. -/
theorem add_inRange {P Q : EccPoint} (hP : inRange P) (hQ : inRange Q) :
    okInRange (add P Q) := by
  unfold add
  by_cases h1 : is_point_at_infinity P = true
  · rw [if_pos h1]; exact hQ
  · rw [if_neg h1]
    by_cases h2 : is_point_at_infinity Q = true
    · rw [if_pos h2]; exact hP
    · rw [if_neg h2]
      by_cases h3 : P = Q
      · rw [if_pos h3]; exact double_inRange hP
      · rw [if_neg h3]
        by_cases h4 : (P.x == Q.x) = true
        · rw [if_pos h4]
          exact ⟨le_refl 0, curve_p_pos, le_refl 0, curve_p_pos⟩
        · rw [if_neg h4]
          cases hinv : inverse (Q.x - P.x) curve_p with
          | none => trivial
          | some inv =>
            obtain ⟨hPx0, hPxp, hPy0, hPyp⟩ := hP
            obtain ⟨hQx0, hQxp, hQy0, hQyp⟩ := hQ
            have hc : ((Q.y - P.y) * (inv : Int) % (curve_p : Int)) ^ 2 %
                (curve_p : Int) < (curve_p : Int) :=
              Int.emod_lt_of_pos _ curve_p_pos
            refine ⟨(whileAddP_range (by omega)).1, (whileAddP_range (by omega)).2,
              Int.emod_nonneg _ (by have := curve_p_pos; omega),
              Int.emod_lt_of_pos _ curve_p_pos⟩

end ECC

namespace ECC

/-! ### Sanity checks on small inputs -/

example : double point_at_infinity = .ok point_at_infinity := rfl

example : add point_at_infinity curve_G = .ok curve_G := rfl

example : multiply curve_G 0 = .ok point_at_infinity := rfl

example : multiply curve_G 1 = .ok (copy curve_G) := rfl

example : multiply point_at_infinity (-5) = .error .invalidScalar := rfl

end ECC

namespace ECC

/-! ### Claim C10: doubling the point at infinity -/

/-- C10: `point_at_infinity().double() == point_at_infinity()` without error:
the `(0, 0)` sentinel has `y == 0`, so the vertical-tangent branch catches it
before the tangent formula is applied. -/
theorem C10_double_infinity : double point_at_infinity = .ok point_at_infinity := rfl

/-! ### Claim C5: the case order of `multiply` -/

/-- C5 counterexample: the claim says multiplying the point at infinity by a
negative scalar returns infinity, but the code checks `scalar < 0` first and
raises the invalid-scalar error instead. -/
theorem C5_counterexample :
    multiply point_at_infinity (-5) = .error .invalidScalar ∧
    multiply point_at_infinity (-5) ≠ .ok point_at_infinity := by
  exact ⟨by decide, by decide⟩

/-- C5 amended: the negative-scalar check comes first, applying to every point
including infinity; then `k == 0` or an infinite base gives infinity; then
`k == 1` gives a coordinate-equal copy. -/
theorem C5_amended (P : EccPoint) (k : Int) :
    (k < 0 → multiply P k = .error .invalidScalar) ∧
    (0 ≤ k → (k = 0 ∨ is_point_at_infinity P = true) →
      multiply P k = .ok point_at_infinity) ∧
    (k = 1 → is_point_at_infinity P = false → multiply P k = .ok (copy P)) := by
  refine ⟨?_, ?_, ?_⟩
  · intro h
    unfold multiply
    rw [if_pos h]
  · intro h0 hcase
    unfold multiply
    rw [if_neg (by omega)]
    have hcond : (k == 0 || is_point_at_infinity P) = true := by
      rcases hcase with h | h
      · subst h; simp
      · simp [h]
    simp only [hcond, if_true]
  · intro h1 hinf
    subst h1
    unfold multiply
    have hcond : ((1 : Int) == 0 || is_point_at_infinity P) = false := by
      simp [hinf]
    simp only [hcond]
    norm_num

/-- C5 witness. -/
theorem C5_amended_witness :
    multiply curve_G (-3) = .error .invalidScalar ∧
    multiply curve_G 0 = .ok point_at_infinity ∧
    multiply curve_G 1 = .ok (copy curve_G) :=
  ⟨(C5_amended curve_G (-3)).1 (by norm_num),
   (C5_amended curve_G 0).2.1 (by norm_num) (Or.inl rfl),
   (C5_amended curve_G 1).2.2 rfl (by decide)⟩

/-! ### Claim C8: the coordinate-range invariant -/

/-- C8 counterexample: the degenerate in-range point `(1, 0)` multiplied by 15
produces the out-of-range point `(1, p)`: the table of negated odd multiples
contains `-(1,0) = (1, p - 0)`, and the final loop step copies it verbatim. -/
theorem C8_counterexample :
    inRange ⟨1, 0⟩ ∧
    multiply ⟨1, 0⟩ 15 = .ok ⟨1, (curve_p : Int)⟩ ∧
    ¬ inRange ⟨1, (curve_p : Int)⟩ := by
  refine ⟨by constructor <;> [decide; refine ⟨by decide, by decide, by decide⟩], by decide, ?_⟩
  intro h
  exact absurd h.2.2.2 (by decide)

/-- C8 amended: `double` and `add` always return points with both coordinates
reduced into `[0, p)` when their inputs are in range; `multiply` does not
guarantee this for degenerate off-curve inputs such as `(1, 0)` (no point of
the actual curve has `y = 0`). -/
theorem C8_amended (P Q : EccPoint) (hP : inRange P) (hQ : inRange Q) :
    okInRange (double P) ∧ okInRange (add P Q) :=
  ⟨double_inRange hP, add_inRange hP hQ⟩

/-- Reduction helpers for the `Except` monad. -/
theorem ok_bind {α β : Type} (a : α) (f : α → Except EccError β) :
    (Except.ok a >>= f) = f a := rfl

theorem error_bind {α β : Type} (e : EccError) (f : α → Except EccError β) :
    ((Except.error e : Except EccError α) >>= f) = .error e := rfl

/-- The `.x` accessor on a point that is not the sentinel. -/
theorem xCoord_of_ne {P : EccPoint} (h : is_point_at_infinity P = false) :
    xCoord P = .ok P.x := by
  unfold xCoord
  rw [h]
  rfl

/-- C8 witness. -/
theorem C8_amended_witness :
    inRange curve_G ∧ okInRange (double curve_G) ∧ okInRange (add curve_G curve_G) :=
  ⟨by refine ⟨by decide, by decide, by decide, by decide⟩,
   (C8_amended curve_G curve_G (by refine ⟨by decide, by decide, by decide, by decide⟩)
     (by refine ⟨by decide, by decide, by decide, by decide⟩)).1,
   (C8_amended curve_G curve_G (by refine ⟨by decide, by decide, by decide, by decide⟩)
     (by refine ⟨by decide, by decide, by decide, by decide⟩)).2⟩

end ECC

namespace ECC

/-! ### Claim C2: the comparison in `_verify` -/

/-- The P-256 coefficient `b` of the short-Weierstrass equation
`y² ≡ x³ − 3x + b (mod p)`; the code never names it, but the base point
satisfies the equation with exactly this value. -/
def curve_b : Nat := 41058363725152142129326129780047268409114441015993725554835256314039467401291

/-- A point of the actual curve whose x-coordinate `order + 3` lies in
`[order, p)`: on it the reduced comparison demanded by the spec and the
unreduced comparison performed by the code disagree. -/
def Q0 : EccPoint :=
  ⟨(curve_order : Int) + 3,
   32706189264453802455814072046653030381229678745603722161528888200092968145471⟩

/-- C2: the code compares `R.x == r` without reducing modulo the order.  With
public point `Q0` (a genuine in-range curve point), `z = 0` and `(r, s) = (3, 3)`,
the computed point is `R = Q0` itself, `R.x mod order = 3 = r`, so the claim
demands `true` — but `_verify` returns `false` because `R.x = order + 3 ≠ 3`. -/
theorem C2_verify_unreduced :
    verify ⟨none, some Q0⟩ 0 (3, 3) = .ok false ∧
    Q0.y ^ 2 % (curve_p : Int) =
      (Q0.x ^ 3 - 3 * Q0.x + (curve_b : Int)) % (curve_p : Int) ∧
    inRange Q0 ∧
    is_point_at_infinity Q0 = false ∧
    Q0.x % (curve_order : Int) = 3 := by
  refine ⟨by decide, by decide, ⟨by decide, by decide, by decide, by decide⟩, by decide, by decide⟩

/-! ### Claim C3: `_verify` raises on the point at infinity -/

set_option maxRecDepth 4000000 in
set_option maxHeartbeats 16000000 in
/-- C3: with public point `G`, `z = order - 1` and `(r, s) = (1, 1)` the
computed point is `R = (order-1)·G + 1·G`, the point at infinity, and `_verify`
raises the `ValueError` of the `.x` accessor instead of returning `false`. -/
theorem C3_verify_raises :
    verify ⟨none, some curve_G⟩ ((curve_order : Int) - 1) (1, 1) =
      .error .pointAtInfinityAccess := by decide

/-! ### Claim C6: the order annihilates the base point -/

set_option maxRecDepth 4000000 in
set_option maxHeartbeats 16000000 in
/-- C6: `G.multiply(order) == point_at_infinity()` for the P-256 constants. -/
theorem C6_group_order :
    multiply curve_G (curve_order : Int) = .ok point_at_infinity := by decide

/-! ### Claim C4: signing with a public-only key -/

/-- `EccKey.d` property: raises `ValueError("This is not a private ECC key")`
on a public-only key (`_sign` does *not* call it). -/
def dProperty (k : EccKey) : Except EccError Int :=
  if has_private k = false then .error .notPrivate
  else match k.d with
    | some d => .ok d
    | none => .error .notPrivate

/-- C4 counterexample: `_sign` performs no `has_private()` check; on a
public-only key it fails with the `TypeError` arising from `self._d * r` with
`self._d = None`, not with the missing-private-key `ValueError` that the `.d`
accessor raises. -/
theorem C4_counterexample :
    sign ⟨none, some curve_G⟩ 5 1 = .error .typeErrorNone ∧
    sign ⟨none, some curve_G⟩ 5 1 ≠ .error .notPrivate ∧
    dProperty ⟨none, some curve_G⟩ = .error .notPrivate ∧
    has_private ⟨none, some curve_G⟩ = false := by
  refine ⟨by decide, by decide, by decide, by decide⟩

/-- C4 amended: `_sign` fails — with the `TypeError` from `None` arithmetic
rather than an explicit missing-private-key error — exactly when
`has_private()` is false; with the private scalar present it returns
`(r, s)` with `r = (G·k).x mod order` and `s = k⁻¹·(z + d·r) mod order`. -/
theorem C4_amended (key : EccKey) (z k : Int) (h0 : 0 < k)
    (h1 : k < (curve_order : Int)) (gk : EccPoint)
    (hgk : multiply curve_G k = .ok gk) (hne : is_point_at_infinity gk = false)
    (kinv : Nat) (hkinv : inverse k curve_order = some kinv) :
    (has_private key = false → sign key z k = .error .typeErrorNone) ∧
    (∀ d, key.d = some d →
      sign key z k = .ok (gk.x % (curve_order : Int),
        (kinv : Int) * (z + d * (gk.x % (curve_order : Int))) % (curve_order : Int))) := by
  have hassert : ¬¬(0 < k ∧ k < (curve_order : Int)) := not_not_intro ⟨h0, h1⟩
  constructor
  · intro hpriv
    have hd : key.d = none := by
      unfold has_private at hpriv
      exact Option.not_isSome_iff_eq_none.mp (by rw [hpriv]; intro hc; cases hc)
    unfold sign
    rw [if_neg hassert, hgk, ok_bind, xCoord_of_ne hne, ok_bind, hkinv, hd]
  · intro d hd
    unfold sign
    rw [if_neg hassert, hgk, ok_bind, xCoord_of_ne hne, ok_bind, hkinv, hd]

/-- C4 witness. -/
theorem C4_amended_witness :
    (has_private ⟨none, some curve_G⟩ = false →
      sign ⟨none, some curve_G⟩ 5 1 = .error .typeErrorNone) ∧
    (∀ d, (⟨some 7, none⟩ : EccKey).d = some d →
      sign ⟨some 7, none⟩ 5 1 = .ok (curve_G.x % (curve_order : Int),
        (1 : Int) * (5 + d * (curve_G.x % (curve_order : Int))) % (curve_order : Int))) :=
  ⟨(C4_amended ⟨none, some curve_G⟩ 5 1 (by norm_num) (by decide) (copy curve_G)
      (by decide) (by decide) 1 (by decide)).1,
   (C4_amended ⟨some 7, none⟩ 5 1 (by norm_num) (by decide) (copy curve_G)
      (by decide) (by decide) 1 (by decide)).2⟩

/-! ### Claim C9: the `_precomp` cache is not observable -/

/-- C9: a successful `multiply` call leaves the coordinates of the receiver
unchanged, and the receiver compares (with `__eq__`, which reads only the two
coordinates) equal to exactly the same points as before the call. -/
theorem C9_cache_unobservable :
    ∀ (P : EccPointObj) (k : Int) (res : EccPoint × EccPointObj),
      multiplyObj P k = .ok res →
      res.2.pt.x = P.pt.x ∧ res.2.pt.y = P.pt.y ∧
      (∀ Q : EccPointObj, pyEq res.2.pt Q.pt = pyEq P.pt Q.pt ∧
        pyEq Q.pt res.2.pt = pyEq Q.pt P.pt) := by
  intro P k res h
  unfold multiplyObj at h
  by_cases h1 : k < 0
  · rw [if_pos h1] at h
    exact Except.noConfusion h
  rw [if_neg h1] at h
  by_cases h2 : (k == 0 || is_point_at_infinity P.pt) = true
  · rw [if_pos h2] at h
    cases h
    exact ⟨rfl, rfl, fun Q => ⟨rfl, rfl⟩⟩
  rw [if_neg h2] at h
  by_cases h3 : (k == 1) = true
  · rw [if_pos h3] at h
    cases h
    exact ⟨rfl, rfl, fun Q => ⟨rfl, rfl⟩⟩
  rw [if_neg h3] at h
  simp only [bind, Except.bind, pure, Except.pure] at h
  cases hpre : P.precomp with
  | some pre =>
    rw [hpre] at h
    dsimp only [] at h
    cases hfold : nafFold pre (nafLoop k.toNat k.toNat).reverse point_at_infinity with
    | error e =>
      rw [hfold] at h
      exact Except.noConfusion h
    | ok v =>
      rw [hfold] at h
      cases h
      exact ⟨rfl, rfl, fun Q => ⟨rfl, rfl⟩⟩
  | none =>
    rw [hpre] at h
    dsimp only [] at h
    cases hcomp : precompute P.pt with
    | error e =>
      rw [hcomp] at h
      exact Except.noConfusion h
    | ok pre =>
      rw [hcomp] at h
      dsimp only [] at h
      cases hfold : nafFold pre (nafLoop k.toNat k.toNat).reverse point_at_infinity with
      | error e =>
        rw [hfold] at h
        exact Except.noConfusion h
      | ok v =>
        rw [hfold] at h
        cases h
        exact ⟨rfl, rfl, fun Q => ⟨rfl, rfl⟩⟩

/-- The table attached to the degenerate point `(1, 0)` by its first windowed
multiplication. -/
def precompDegenerate : List EccPoint :=
  [point_at_infinity, ⟨1, 0⟩, point_at_infinity, ⟨1, 0⟩, point_at_infinity,
   ⟨1, 0⟩, point_at_infinity, ⟨1, 0⟩,
   ⟨1, (curve_p : Int)⟩, point_at_infinity, ⟨1, (curve_p : Int)⟩,
   point_at_infinity, ⟨1, (curve_p : Int)⟩, point_at_infinity,
   ⟨1, (curve_p : Int)⟩]

/-- C9 witness: a concrete call on the degenerate point `(1, 0)` with scalar 2;
the state after the call keeps the coordinates and only gains the cache. -/
theorem C9_witness :
    multiplyObj ⟨⟨1, 0⟩, none⟩ 2 =
      .ok (point_at_infinity, ⟨⟨1, 0⟩, some precompDegenerate⟩) ∧
    (point_at_infinity, (⟨⟨1, 0⟩, some precompDegenerate⟩ : EccPointObj)).2.pt.x =
      (⟨⟨1, 0⟩, none⟩ : EccPointObj).pt.x := by
  have hEval : multiplyObj ⟨⟨1, 0⟩, none⟩ 2 =
      .ok (point_at_infinity, ⟨⟨1, 0⟩, some precompDegenerate⟩) := by decide
  exact ⟨hEval, (C9_cache_unobservable _ _ _ hEval).1⟩

end ECC

namespace ECC

/-! ### Claim C7: commutativity of point addition -/

/-- The sentinel test, unfolded. -/
theorem is_inf_iff {P : EccPoint} :
    is_point_at_infinity P = true ↔ P.x = 0 ∧ P.y = 0 := by
  simp [is_point_at_infinity]

/-- C7: `P.add(Q) == Q.add(P)` for all points, special cases, errors and all. -/
theorem C7_add_comm (P Q : EccPoint) : add P Q = add Q P := by
  have hp1 : 1 < curve_p := curve_p_one_lt
  unfold add
  by_cases h1 : is_point_at_infinity P = true
  · by_cases h2 : is_point_at_infinity Q = true
    · rw [if_pos h1, if_pos h2]
      obtain ⟨hP1, hP2⟩ := is_inf_iff.mp h1
      obtain ⟨hQ1, hQ2⟩ := is_inf_iff.mp h2
      unfold copy
      rw [hP1, hP2, hQ1, hQ2]
    · rw [if_pos h1, if_neg h2, if_pos h1]
  · rw [if_neg h1]
    by_cases h2 : is_point_at_infinity Q = true
    · rw [if_pos h2, if_pos h2]
    · rw [if_neg h2, if_neg h2, if_neg h1]
      by_cases h3 : P = Q
      · subst h3
        rfl
      · have h3Q : ¬(Q = P) := fun hc => h3 hc.symm
        rw [if_neg h3, if_neg h3Q]
        by_cases h4 : (P.x == Q.x) = true
        · have h4Q : (Q.x == P.x) = true := beq_iff_eq.mpr (beq_iff_eq.mp h4).symm
          rw [if_pos h4, if_pos h4Q]
        · have h4Q : ¬((Q.x == P.x) = true) :=
            fun hc => h4 (beq_iff_eq.mpr (beq_iff_eq.mp hc).symm)
          rw [if_neg h4, if_neg h4Q]
          have hneg : P.x - Q.x = -(Q.x - P.x) := by ring
          cases hinv : inverse (Q.x - P.x) curve_p with
          | none =>
            have hnone2 : inverse (P.x - Q.x) curve_p = none := by
              rw [hneg]
              rw [inverse_none_iff hp1] at hinv ⊢
              intro hc
              have h6 := HasInv.negSelf hp1 hc
              rw [neg_neg] at h6
              exact hinv h6
            rw [hnone2]
          | some v =>
            obtain ⟨hvlt, hvmul⟩ := inverse_some_spec hp1 hinv
            have hinv2 : inverse (P.x - Q.x) curve_p = some (curve_p - v) := by
              rw [hneg]
              exact inverse_neg_of_some hp1 hinv
            rw [hinv2]
            dsimp only []
            -- the two slopes agree
            have hcast : ((curve_p - v : Nat) : Int) = (curve_p : Int) - (v : Int) := by
              omega
            have hlam : (P.y - Q.y) * ((curve_p - v : Nat) : Int) % (curve_p : Int) =
                (Q.y - P.y) * (v : Int) % (curve_p : Int) := by
              rw [hcast]
              have : Int.ModEq (curve_p : Int)
                  ((P.y - Q.y) * ((curve_p : Int) - (v : Int)))
                  ((Q.y - P.y) * (v : Int)) := by
                refine Int.modEq_iff_dvd.mpr ?_
                have heq : (Q.y - P.y) * (v : Int) -
                    (P.y - Q.y) * ((curve_p : Int) - (v : Int)) =
                    (curve_p : Int) * (Q.y - P.y) := by ring
                rw [heq]
                exact Dvd.intro _ rfl
              exact this
            rw [hlam]
            -- the two x-coordinates agree
            rw [show ((Q.y - P.y) * (v : Int) % (curve_p : Int)) ^ 2 %
                (curve_p : Int) - Q.x - P.x =
                ((Q.y - P.y) * (v : Int) % (curve_p : Int)) ^ 2 %
                (curve_p : Int) - P.x - Q.x from by ring]
            -- the two y-coordinates agree modulo p
            set lam := (Q.y - P.y) * (v : Int) % (curve_p : Int) with hlamdef
            set x3i := lam ^ 2 % (curve_p : Int) - P.x - Q.x with hx3idef
            set x3 := whileAddP (normFuel x3i) x3i with hx3def
            have htv : Int.ModEq (curve_p : Int) ((Q.x - P.x) * (v : Int)) 1 := by
              unfold Int.ModEq
              rw [hvmul, Int.emod_eq_of_lt (by norm_num) (by exact_mod_cast hp1)]
            have hy3 : ((Q.x - x3) * lam - Q.y) % (curve_p : Int) =
                ((P.x - x3) * lam - P.y) % (curve_p : Int) := by
              have hlamcong : Int.ModEq (curve_p : Int) lam ((Q.y - P.y) * (v : Int)) := by
                rw [hlamdef]
                exact Int.emod_emod_of_dvd _ dvd_rfl
              have hkey : Int.ModEq (curve_p : Int)
                  ((Q.x - x3) * lam - Q.y) ((P.x - x3) * lam - P.y) := by
                have hstep : Int.ModEq (curve_p : Int)
                    ((Q.x - P.x) * lam) (Q.y - P.y) := by
                  calc (Q.x - P.x) * lam
                      ≡ (Q.x - P.x) * ((Q.y - P.y) * (v : Int))
                        [ZMOD (curve_p : Int)] := hlamcong.mul_left _
                    _ = ((Q.x - P.x) * (v : Int)) * (Q.y - P.y) := by ring
                    _ ≡ 1 * (Q.y - P.y) [ZMOD (curve_p : Int)] := htv.mul_right _
                    _ = Q.y - P.y := by ring
                have hdiff : Int.ModEq (curve_p : Int)
                    (((Q.x - x3) * lam - Q.y) - ((P.x - x3) * lam - P.y)) 0 := by
                  have hrew : ((Q.x - x3) * lam - Q.y) - ((P.x - x3) * lam - P.y) =
                      (Q.x - P.x) * lam - (Q.y - P.y) := by ring
                  rw [hrew]
                  calc (Q.x - P.x) * lam - (Q.y - P.y)
                      ≡ (Q.y - P.y) - (Q.y - P.y) [ZMOD (curve_p : Int)] :=
                        hstep.sub (Int.ModEq.refl _)
                    _ = 0 := by ring
                have := hdiff.add (Int.ModEq.refl ((P.x - x3) * lam - P.y))
                calc (Q.x - x3) * lam - Q.y
                    = (((Q.x - x3) * lam - Q.y) - ((P.x - x3) * lam - P.y)) +
                      ((P.x - x3) * lam - P.y) := by ring
                  _ ≡ 0 + ((P.x - x3) * lam - P.y) [ZMOD (curve_p : Int)] := this
                  _ = (P.x - x3) * lam - P.y := by ring
              exact hkey
            rw [hy3]

end ECC

namespace ECC

/-! ### Fast modular exponentiation and Pratt--Lucas primality certificates

`multiply`'s correctness proof (claim C1) needs `curve_p` to be prime, so that
`ZMod curve_p` is a field and Mathlib's affine group law applies.  Primality is
established through `lucas_primality` with an explicit certificate chain; the
modular exponentiations of the certificate are evaluated by the kernel through
the binary `powMod` below. -/

/-- Binary modular exponentiation, fuel-based (`fuel ≥ e` suffices since the
exponent halves at every step). -/
def powModF : Nat → Nat → Nat → Nat → Nat
  | 0, _, _, m => 1 % m
  | f+1, a, e, m =>
    if e = 0 then 1 % m
    else
      let r := powModF f (a * a % m) (e / 2) m
      if e % 2 = 1 then r * a % m else r

/-- `a ^ e % m` by square and multiply. -/
def powMod (a e m : Nat) : Nat := powModF e a e m

theorem powModF_spec : ∀ (f a e m : Nat), 0 < m → e ≤ f →
    powModF f a e m = a ^ e % m := by
  intro f
  induction f with
  | zero =>
    intro a e m hm he
    have : e = 0 := Nat.le_zero.mp he
    subst this
    rw [powModF, pow_zero]
  | succ f ih =>
    intro a e m hm he
    rw [powModF]
    by_cases he0 : e = 0
    · rw [if_pos he0, he0, pow_zero]
    · rw [if_neg he0]
      have hehalf : e / 2 ≤ f := by omega
      rw [ih (a * a % m) (e / 2) m hm hehalf]
      have hsq : (a * a % m) ^ (e / 2) % m = (a * a) ^ (e / 2) % m := by
        conv_rhs => rw [Nat.pow_mod]
      rw [hsq]
      have key : (a * a) ^ (e / 2) * a ^ (e % 2) = a ^ e := by
        rw [show a * a = a ^ 2 from (sq a).symm, ← pow_mul, ← pow_add]
        congr 1
        omega
      by_cases hpar : e % 2 = 1
      · rw [if_pos hpar]
        have : a ^ e = (a * a) ^ (e / 2) * a := by
          rw [← key, hpar, pow_one]
        rw [this, Nat.mul_mod, Nat.mod_mod_of_dvd _ dvd_rfl, ← Nat.mul_mod]
      · rw [if_neg hpar]
        have hz : e % 2 = 0 := by omega
        have : a ^ e = (a * a) ^ (e / 2) := by
          rw [← key, hz, pow_zero, mul_one]
        rw [this]

theorem powMod_spec (a e m : Nat) (hm : 0 < m) : powMod a e m = a ^ e % m :=
  powModF_spec e a e m hm (le_refl e)

theorem powMod_lt (a e m : Nat) (hm : 1 < m) : powMod a e m < m := by
  rw [powMod_spec a e m (by omega)]
  exact Nat.mod_lt _ (by omega)

/-- Kernel-computable bridge into `ZMod`. -/
theorem powMod_zmod (a e m : Nat) (hm : 0 < m) :
    ((powMod a e m : Nat) : ZMod m) = ((a : Nat) : ZMod m) ^ e := by
  rw [powMod_spec a e m hm, ZMod.natCast_mod, Nat.cast_pow]

theorem pow_eq_one_of_powMod {p : Nat} (a e : Nat)
    (hp : 0 < p) (h : powMod a e p = 1) : ((a : Nat) : ZMod p) ^ e = 1 := by
  rw [← powMod_zmod a e p hp, h, Nat.cast_one]

theorem pow_ne_one_of_powMod_ne {p : Nat} (hp : 1 < p) (a e : Nat)
    (h : powMod a e p ≠ 1) : ((a : Nat) : ZMod p) ^ e ≠ 1 := by
  intro hone
  apply h
  have hbridge : ((powMod a e p : Nat) : ZMod p) = ((a : Nat) : ZMod p) ^ e :=
    powMod_zmod a e p (by omega)
  rw [hone] at hbridge
  haveI : Fact (1 < p) := ⟨hp⟩
  calc powMod a e p = ((powMod a e p : Nat) : ZMod p).val :=
        (ZMod.val_cast_of_lt (powMod_lt a e p hp)).symm
    _ = (1 : ZMod p).val := by rw [hbridge]
    _ = 1 := ZMod.val_one p

/-- A prime dividing a product of listed factors divides one of them. -/
theorem mem_of_prime_dvd_prod (q : Nat) (hq : Nat.Prime q) :
    ∀ l : List Nat, q ∣ l.foldr (· * ·) 1 → ∃ r ∈ l, q ∣ r := by
  intro l
  induction l with
  | nil =>
    intro h
    simp only [List.foldr_nil] at h
    have h1 := Nat.le_of_dvd (by norm_num) h
    have h2 := hq.two_le
    exact (by omega : False).elim
  | cons r t ih =>
    intro h
    simp only [List.foldr_cons] at h
    rcases (Nat.Prime.dvd_mul hq).mp h with hr | ht
    · exact ⟨r, List.mem_cons_self r t, hr⟩
    · obtain ⟨x, hx, hqx⟩ := ih ht
      exact ⟨x, List.mem_cons_of_mem r hx, hqx⟩

/-- Transfer a non-identity power obligation along `q = r`. -/
theorem lucas_cert_step {p : Nat} (hp : 1 < p) (a q r : Nat) (hq : Nat.Prime q)
    (hr : Nat.Prime r) (hqr : q ∣ r) (hne : powMod a ((p - 1) / r) p ≠ 1) :
    ((a : Nat) : ZMod p) ^ ((p - 1) / q) ≠ 1 := by
  have : q = r := (Nat.prime_dvd_prime_iff_eq hq hr).mp hqr
  subst this
  exact pow_ne_one_of_powMod_ne hp a _ hne

end ECC

namespace ECC

/-! The Pratt chain for `curve_p`, bottom-up.  Each step uses an explicit
primitive root and the full factorisation of `n - 1`; the small factors are
handled by `norm_num`, the large ones by the previous steps. -/

theorem prime_66417393611 : Nat.Prime 66417393611 := by
  have hp : (1 : Nat) < 66417393611 := by norm_num
  refine lucas_primality _ ((6 : Nat) : ZMod 66417393611)
    (pow_eq_one_of_powMod 6 _ (by omega) (by decide)) ?_
  intro q hq hdvd
  have hfact : (66417393611 : Nat) - 1 = [2, 5, 53, 173, 197, 3677].foldr (· * ·) 1 := by decide
  rw [hfact] at hdvd
  obtain ⟨r, hr, hqr⟩ := mem_of_prime_dvd_prod q hq _ hdvd
  fin_cases hr <;>
    exact lucas_cert_step hp 6 q _ hq (by norm_num) hqr (by decide)

end ECC

namespace ECC

set_option maxRecDepth 1000000

theorem prime_46076956964474543 : Nat.Prime 46076956964474543 := by
  have hp : (1 : Nat) < 46076956964474543 := by norm_num
  refine lucas_primality _ ((5 : Nat) : ZMod 46076956964474543)
    (pow_eq_one_of_powMod 5 _ (by omega) (by decide)) ?_
  intro q hq hdvd
  have hfact : (46076956964474543 : Nat) - 1 =
      [2, 23, 18169, 78283, 704251].foldr (· * ·) 1 := by decide
  rw [hfact] at hdvd
  obtain ⟨r, hr, hqr⟩ := mem_of_prime_dvd_prod q hq _ hdvd
  fin_cases hr <;>
    exact lucas_cert_step hp 5 q _ hq (by norm_num) hqr (by decide)

theorem prime_11290956913871 : Nat.Prime 11290956913871 := by
  have hp : (1 : Nat) < 11290956913871 := by norm_num
  refine lucas_primality _ ((13 : Nat) : ZMod 11290956913871)
    (pow_eq_one_of_powMod 13 _ (by omega) (by decide)) ?_
  intro q hq hdvd
  have hfact : (11290956913871 : Nat) - 1 =
      [2, 5, 17, 66417393611].foldr (· * ·) 1 := by decide
  rw [hfact] at hdvd
  obtain ⟨r, hr, hqr⟩ := mem_of_prime_dvd_prod q hq _ hdvd
  fin_cases hr <;>
    first
      | exact lucas_cert_step hp 13 q _ hq prime_66417393611 hqr (by decide)
      | exact lucas_cert_step hp 13 q _ hq (by norm_num) hqr (by decide)

theorem prime_204061199 : Nat.Prime 204061199 := by
  have hp : (1 : Nat) < 204061199 := by norm_num
  refine lucas_primality _ ((11 : Nat) : ZMod 204061199)
    (pow_eq_one_of_powMod 11 _ (by omega) (by decide)) ?_
  intro q hq hdvd
  have hfact : (204061199 : Nat) - 1 = [2, 11, 23, 107, 3769].foldr (· * ·) 1 := by decide
  rw [hfact] at hdvd
  obtain ⟨r, hr, hqr⟩ := mem_of_prime_dvd_prod q hq _ hdvd
  fin_cases hr <;>
    exact lucas_cert_step hp 11 q _ hq (by norm_num) hqr (by decide)

theorem prime_34282281433 : Nat.Prime 34282281433 := by
  have hp : (1 : Nat) < 34282281433 := by norm_num
  refine lucas_primality _ ((17 : Nat) : ZMod 34282281433)
    (pow_eq_one_of_powMod 17 _ (by omega) (by decide)) ?_
  intro q hq hdvd
  have hfact : (34282281433 : Nat) - 1 =
      [2, 2, 2, 3, 7, 204061199].foldr (· * ·) 1 := by decide
  rw [hfact] at hdvd
  obtain ⟨r, hr, hqr⟩ := mem_of_prime_dvd_prod q hq _ hdvd
  fin_cases hr <;>
    first
      | exact lucas_cert_step hp 17 q _ hq prime_204061199 hqr (by decide)
      | exact lucas_cert_step hp 17 q _ hq (by norm_num) hqr (by decide)

theorem prime_774023187263532362759620327192479577272145303 :
    Nat.Prime 774023187263532362759620327192479577272145303 := by
  have hp : (1 : Nat) < 774023187263532362759620327192479577272145303 := by norm_num
  refine lucas_primality _
    ((3 : Nat) : ZMod 774023187263532362759620327192479577272145303)
    (pow_eq_one_of_powMod 3 _ (by omega) (by decide)) ?_
  intro q hq hdvd
  have hfact : (774023187263532362759620327192479577272145303 : Nat) - 1 =
      [2, 3, 3, 2411, 34282281433, 11290956913871,
       46076956964474543].foldr (· * ·) 1 := by decide
  rw [hfact] at hdvd
  obtain ⟨r, hr, hqr⟩ := mem_of_prime_dvd_prod q hq _ hdvd
  fin_cases hr <;>
    first
      | exact lucas_cert_step hp 3 q _ hq prime_34282281433 hqr (by decide)
      | exact lucas_cert_step hp 3 q _ hq prime_11290956913871 hqr (by decide)
      | exact lucas_cert_step hp 3 q _ hq prime_46076956964474543 hqr (by decide)
      | exact lucas_cert_step hp 3 q _ hq (by norm_num) hqr (by decide)

theorem prime_835945042244614951780389953367877943453916927241 :
    Nat.Prime 835945042244614951780389953367877943453916927241 := by
  have hp : (1 : Nat) < 835945042244614951780389953367877943453916927241 := by norm_num
  refine lucas_primality _
    ((11 : Nat) : ZMod 835945042244614951780389953367877943453916927241)
    (pow_eq_one_of_powMod 11 _ (by omega) (by decide)) ?_
  intro q hq hdvd
  have hfact : (835945042244614951780389953367877943453916927241 : Nat) - 1 =
      [2, 2, 2, 3, 3, 3, 5,
       774023187263532362759620327192479577272145303].foldr (· * ·) 1 := by decide
  rw [hfact] at hdvd
  obtain ⟨r, hr, hqr⟩ := mem_of_prime_dvd_prod q hq _ hdvd
  fin_cases hr <;>
    first
      | exact lucas_cert_step hp 11 q _ hq
          prime_774023187263532362759620327192479577272145303 hqr (by decide)
      | exact lucas_cert_step hp 11 q _ hq (by norm_num) hqr (by decide)

/-- `curve_p` is prime, by the full Pratt--Lucas chain. -/
theorem curve_p_prime : Nat.Prime curve_p := by
  have hp : (1 : Nat) < curve_p := curve_p_one_lt
  refine lucas_primality _ ((6 : Nat) : ZMod curve_p)
    (pow_eq_one_of_powMod 6 _ (by omega) (by decide)) ?_
  intro q hq hdvd
  have hfact : curve_p - 1 =
      [2, 3, 5, 5, 17, 257, 641, 1531, 65537, 490463, 6700417,
       835945042244614951780389953367877943453916927241].foldr (· * ·) 1 := by decide
  rw [hfact] at hdvd
  obtain ⟨r, hr, hqr⟩ := mem_of_prime_dvd_prod q hq _ hdvd
  fin_cases hr <;>
    first
      | exact lucas_cert_step hp 6 q _ hq
          prime_835945042244614951780389953367877943453916927241 hqr (by decide)
      | exact lucas_cert_step hp 6 q _ hq (by norm_num) hqr (by decide)

end ECC

namespace ECC

/-! ### The P-256 curve over `ZMod curve_p` and the abstraction map

With `curve_p` prime, `ZMod curve_p` is a field and Mathlib's affine
Weierstrass group law applies to the curve `y² = x³ - 3x + b`. -/

instance : Fact (Nat.Prime curve_p) := ⟨curve_p_prime⟩

/-- The base field of P-256. -/
abbrev Fp : Type := ZMod curve_p

/-- The P-256 short-Weierstrass curve, `a₄ = -3`, `a₆ = b`. -/
def Wcurve : WeierstrassCurve.Affine Fp :=
  { a₁ := 0, a₂ := 0, a₃ := 0, a₄ := -3, a₆ := ((curve_b : Nat) : Fp) }

theorem castInt_emod (a : Int) :
    ((a % (curve_p : Int) : Int) : Fp) = (a : Fp) :=
  ZMod.intCast_mod a curve_p

theorem castInt_inj {a c : Int} (ha : 0 ≤ a) (hap : a < (curve_p : Int))
    (hc : 0 ≤ c) (hcp : c < (curve_p : Int)) (h : (a : Fp) = (c : Fp)) : a = c := by
  rw [ZMod.intCast_eq_intCast_iff'] at h
  rwa [Int.emod_eq_of_lt ha hap, Int.emod_eq_of_lt hc hcp] at h

theorem natCast_fp_ne_zero {n : Nat} (hlt : n < curve_p) (hne : n ≠ 0) :
    ((n : Nat) : Fp) ≠ 0 := by
  intro h
  have hval : ((n : Nat) : Fp).val = n := ZMod.val_cast_of_lt hlt
  rw [h] at hval
  haveI : NeZero curve_p := ⟨by decide⟩
  rw [ZMod.val_zero] at hval
  exact hne hval.symm

theorem b_lt_p : curve_b < curve_p := by decide

theorem b_ne_zero_fp : ((curve_b : Nat) : Fp) ≠ 0 :=
  natCast_fp_ne_zero b_lt_p (by decide)

theorem two_ne_zero_fp : (2 : Fp) ≠ 0 := by
  have h : ((2 : Nat) : Fp) ≠ 0 := natCast_fp_ne_zero (by decide) (by decide)
  exact_mod_cast h

/-- The discriminant of the curve is non-zero (it equals `1728 - 432·b²`,
whose canonical representative is the explicit value below). -/
theorem Wcurve_delta_ne_zero : Wcurve.Δ ≠ 0 := by
  have hNat : 432 * curve_b ^ 2 +
      47064476442213300654454205837611899485069387829947879813735601543372794627813 =
      1728 + 6289384301624654895904207140081869400103037730988177646169722935913351645555627 *
        curve_p := by decide
  have hcast := congrArg (fun n : Nat => (n : Fp)) hNat
  push_cast at hcast
  rw [ZMod.natCast_self, mul_zero, add_zero] at hcast
  have hD : Wcurve.Δ =
      ((47064476442213300654454205837611899485069387829947879813735601543372794627813 :
        Nat) : Fp) := by
    simp only [WeierstrassCurve.Δ, WeierstrassCurve.b₂, WeierstrassCurve.b₄,
      WeierstrassCurve.b₆, WeierstrassCurve.b₈, Wcurve]
    push_cast
    linear_combination -hcast
  rw [hD]
  exact natCast_fp_ne_zero (by decide) (by decide)

/-- The curve equation for the integer coordinates, stated with Python `%`. -/
def OnCurveEq (P : EccPoint) : Prop :=
  P.y ^ 2 % (curve_p : Int) = (P.x ^ 3 - 3 * P.x + (curve_b : Int)) % (curve_p : Int)

instance (P : EccPoint) : Decidable (OnCurveEq P) := by
  unfold OnCurveEq; infer_instance

/-- A point value the spec calls valid: the `(0, 0)` infinity sentinel, or an
in-range point satisfying the curve equation. -/
def Valid (P : EccPoint) : Prop :=
  is_point_at_infinity P = true ∨ (inRange P ∧ OnCurveEq P)

instance (P : EccPoint) : Decidable (Valid P) := by
  unfold Valid; infer_instance

theorem equation_of_onCurve {P : EccPoint} (h : OnCurveEq P) :
    Wcurve.Equation (P.x : Fp) (P.y : Fp) := by
  rw [WeierstrassCurve.Affine.equation_iff]
  simp only [Wcurve]
  have hcast := (ZMod.intCast_eq_intCast_iff' _ _ _).mpr h
  push_cast at hcast
  linear_combination hcast

theorem onCurve_of_equation {x y : Int}
    (h : Wcurve.Equation (x : Fp) (y : Fp)) : OnCurveEq ⟨x, y⟩ := by
  rw [WeierstrassCurve.Affine.equation_iff] at h
  simp only [Wcurve] at h
  unfold OnCurveEq
  rw [← ZMod.intCast_eq_intCast_iff']
  push_cast
  linear_combination h

theorem nonsingular_of_valid {P : EccPoint} (h : Valid P)
    (hinf : ¬ is_point_at_infinity P = true) :
    Wcurve.Nonsingular (P.x : Fp) (P.y : Fp) := by
  rcases h with h | h
  · exact absurd h hinf
  · exact Wcurve.nonsingular_of_Δ_ne_zero (equation_of_onCurve h.2) Wcurve_delta_ne_zero

/-- The abstraction map from in-range curve points to Mathlib's points. -/
def toW (P : EccPoint) (h : Valid P) : Wcurve.Point :=
  if hinf : is_point_at_infinity P = true then 0
  else WeierstrassCurve.Affine.Point.some (nonsingular_of_valid h hinf)

/-- `P` represents the abstract point `A`. -/
def Rep (P : EccPoint) (A : Wcurve.Point) : Prop := ∃ h : Valid P, toW P h = A

theorem Rep.infinity : Rep point_at_infinity 0 :=
  ⟨Or.inl rfl, by unfold toW; exact dif_pos rfl⟩

end ECC

namespace ECC

/-! ### The curve has no two-torsion: the cubic `x³ - 3x + b` has no root

A root would be the x-coordinate of a point with `y = 0`.  We compute
`X^p mod (X³ - 3X + b)` by binary exponentiation on coefficient triples
(reduced with `X³ = 3X - b`); any root `a` satisfies `a^p = a` by Fermat, so it
would also be a root of the degree-2 remainder minus `X`, and an explicit
integer Bézout identity between the cubic and that quadratic yields `0 = 1`. -/

/-- Multiplication of quadratic coefficient triples `(c0, c1, c2)` modulo the
cubic `X³ - 3X + b` and modulo `p` (the `X³` and `X⁴` terms are reduced with
`X³ = 3X - b`, writing `-b` as `p - b` to stay in `Nat`). -/
def tmul (u v : Nat × Nat × Nat) : Nat × Nat × Nat :=
  let w0 := u.1 * v.1
  let w1 := u.1 * v.2.1 + u.2.1 * v.1
  let w2 := u.1 * v.2.2 + u.2.1 * v.2.1 + u.2.2 * v.1
  let w3 := u.2.1 * v.2.2 + u.2.2 * v.2.1
  let w4 := u.2.2 * v.2.2
  ((w0 + (curve_p - curve_b) * w3) % curve_p,
   (w1 + 3 * w3 + (curve_p - curve_b) * w4) % curve_p,
   (w2 + 3 * w4) % curve_p)

/-- The value of a coefficient triple at `a`. -/
def evalT (t : Nat × Nat × Nat) (a : Fp) : Fp :=
  (t.1 : Fp) + (t.2.1 : Fp) * a + (t.2.2 : Fp) * a ^ 2

theorem cast_p_sub_b : (((curve_p - curve_b : Nat)) : Fp) = -((curve_b : Nat) : Fp) := by
  have hle : curve_b ≤ curve_p := le_of_lt b_lt_p
  rw [Nat.cast_sub hle, ZMod.natCast_self]
  ring

theorem tmul_sound {a : Fp} (ha : a ^ 3 = 3 * a - ((curve_b : Nat) : Fp))
    (u v : Nat × Nat × Nat) : evalT (tmul u v) a = evalT u a * evalT v a := by
  obtain ⟨u0, u1, u2⟩ := u
  obtain ⟨v0, v1, v2⟩ := v
  have ha4 : a ^ 4 = 3 * a ^ 2 - ((curve_b : Nat) : Fp) * a := by
    rw [show a ^ 4 = a * a ^ 3 from by ring, ha]
    ring
  unfold evalT tmul
  dsimp only
  rw [ZMod.natCast_mod, ZMod.natCast_mod, ZMod.natCast_mod]
  push_cast [cast_p_sub_b]
  linear_combination (-((u1 : Fp) * v2 + (u2 : Fp) * v1)) * ha - ((u2 : Fp) * v2) * ha4

/-- Binary exponentiation on coefficient triples, fuel-based. -/
def tpowF : Nat → (Nat × Nat × Nat) → Nat → (Nat × Nat × Nat)
  | 0, _, _ => (1 % curve_p, 0, 0)
  | f+1, base, e =>
    if e = 0 then (1 % curve_p, 0, 0)
    else
      let r := tpowF f (tmul base base) (e / 2)
      if e % 2 = 1 then tmul r base else r

theorem evalT_one {a : Fp} : evalT (1 % curve_p, 0, 0) a = 1 := by
  unfold evalT
  rw [ZMod.natCast_mod]
  push_cast
  ring

theorem tpowF_sound {a : Fp} (ha : a ^ 3 = 3 * a - ((curve_b : Nat) : Fp)) :
    ∀ (f : Nat) (base : Nat × Nat × Nat) (e : Nat), e ≤ f →
      evalT (tpowF f base e) a = (evalT base a) ^ e := by
  intro f
  induction f with
  | zero =>
    intro base e he
    have : e = 0 := Nat.le_zero.mp he
    subst this
    rw [tpowF, pow_zero, evalT_one]
  | succ f ih =>
    intro base e he
    rw [tpowF]
    by_cases he0 : e = 0
    · rw [if_pos he0, he0, pow_zero, evalT_one]
    · rw [if_neg he0]
      have hrec := ih (tmul base base) (e / 2) (by omega)
      have hkey : ((evalT base a) * (evalT base a)) ^ (e / 2) *
          (evalT base a) ^ (e % 2) = (evalT base a) ^ e := by
        rw [show (evalT base a) * (evalT base a) = (evalT base a) ^ 2 from (sq _).symm,
          ← pow_mul, ← pow_add]
        congr 1
        omega
      by_cases hpar : e % 2 = 1
      · rw [if_pos hpar, tmul_sound ha, hrec, tmul_sound ha]
        rw [← hkey, hpar, pow_one]
      · rw [if_neg hpar, hrec, tmul_sound ha]
        have hz : e % 2 = 0 := by omega
        rw [← hkey, hz, pow_zero, mul_one]

set_option maxRecDepth 1000000 in
/-- The remainder of `X^p` modulo the cubic, computed by the kernel. -/
theorem tpow_value : tpowF curve_p (0, 1, 0) curve_p =
    (66434390973925144466073271287821796038003695194169110494110089305650096453661,
     12402202686218762177567235911775779164004716598278868847786114277539554646092,
     24678849118215552148312087830792888746041224110560601850711771001608500700145) := by
  decide

/-- The cubic `x³ - 3x + b` has no root in `Fp`. -/
theorem cubic_no_root (a : Fp) :
    a ^ 3 - 3 * a + ((curve_b : Nat) : Fp) ≠ 0 := by
  intro hroot
  have ha : a ^ 3 = 3 * a - ((curve_b : Nat) : Fp) := by linear_combination hroot
  have hsound := tpowF_sound ha curve_p (0, 1, 0) curve_p (le_refl _)
  rw [tpow_value] at hsound
  have hbase : evalT (0, 1, 0) a = a := by
    unfold evalT
    push_cast
    ring
  rw [hbase, ZMod.pow_card] at hsound
  -- the remainder evaluated at `a` equals `a`
  have hg : ((66434390973925144466073271287821796038003695194169110494110089305650096453661 : Nat) : Fp) +
      ((12402202686218762177567235911775779164004716598278868847786114277539554646092 : Nat) : Fp) * a +
      ((24678849118215552148312087830792888746041224110560601850711771001608500700145 : Nat) : Fp) * a ^ 2 = a := by
    have h := hsound
    unfold evalT at h
    exact h
  -- Bézout: U·f + V·(r - X) = 1 + p·w over the integers, with these numerals
  have hId : ∀ x : Fp,
      ((107286402702237026811154678719514266289498743974321057492273529440068429825344 : Fp) +
        (6389611969556882025875921584714237703390037729321797349080302270353162149340 : Fp) * x) *
        (x ^ 3 + (115792089210356248762697446949407573530086143415290314195533631308867097853948 : Fp) * x +
          (41058363725152142129326129780047268409114441015993725554835256314039467401291 : Fp)) +
      ((76626890310466861426869089647039036757962535851890885406097439786770458211455 : Fp) +
        (74462945259064871768191128030512052509059297803194871526163573358218695456204 : Fp) * x +
        (34768139465301476436978405170953382516735956999154666452188405812258086013549 : Fp) * x ^ 2) *
        ((66434390973925144466073271287821796038003695194169110494110089305650096453661 : Fp) +
          (12402202686218762177567235911775779164004716598278868847786114277539554646091 : Fp) * x +
          (24678849118215552148312087830792888746041224110560601850711771001608500700145 : Fp) * x ^ 2) =
      1 + (115792089210356248762697446949407573530086143415290314195533631308867097853951 : Fp) *
        ((82006162939704079939581181709976996092266308199183309578158969013154857761758 : Fp) +
          (160481657210292944356723964264545526708873436893099286578027577197691306529851 : Fp) * x +
          (50644519275446308109248730646041827234392125521364766985800694765571451422148 : Fp) * x ^ 2 +
          (19594268650736750401918991328041959909110035062448741686819397381038349806533 : Fp) * x ^ 3 +
          (7410157929066101016865484023617449031630549387091645260359016622210978818695 : Fp) * x ^ 4) := by
    intro x
    ring
  have hpz : (115792089210356248762697446949407573530086143415290314195533631308867097853951 : Fp) = 0 := by
    have h := ZMod.natCast_self curve_p
    rw [show ((curve_p : Nat) : Fp) =
      ((115792089210356248762697446949407573530086143415290314195533631308867097853951 : Nat) : Fp) from rfl] at h
    push_cast at h
    exact h
  have hpm3 : (115792089210356248762697446949407573530086143415290314195533631308867097853948 : Fp) = -3 := by
    have h : (115792089210356248762697446949407573530086143415290314195533631308867097853948 : Fp) + 3 =
        (115792089210356248762697446949407573530086143415290314195533631308867097853951 : Fp) := by
      norm_num
    rw [hpz] at h
    linear_combination h
  have hfa : a ^ 3 + (115792089210356248762697446949407573530086143415290314195533631308867097853948 : Fp) * a +
      (41058363725152142129326129780047268409114441015993725554835256314039467401291 : Fp) = 0 := by
    rw [hpm3]
    have hb : ((41058363725152142129326129780047268409114441015993725554835256314039467401291 : Nat) : Fp) =
        ((curve_b : Nat) : Fp) := rfl
    push_cast at hb
    rw [hb]
    linear_combination hroot
  have hga : ((66434390973925144466073271287821796038003695194169110494110089305650096453661 : Fp) +
      (12402202686218762177567235911775779164004716598278868847786114277539554646091 : Fp) * a +
      (24678849118215552148312087830792888746041224110560601850711771001608500700145 : Fp) * a ^ 2) = 0 := by
    push_cast at hg
    linear_combination hg
  have h0 := hId a
  rw [hfa, hga, hpz] at h0
  simp only [mul_zero, add_zero, zero_mul, zero_add] at h0
  exact one_ne_zero h0.symm

/-- A valid non-infinity point never has `y = 0` (no two-torsion). -/
theorem no_two_torsion {P : EccPoint} (hP : Valid P)
    (hinf : is_point_at_infinity P = false) : P.y ≠ 0 := by
  intro hy
  rcases hP with h | ⟨hrange, hcurve⟩
  · rw [hinf] at h
    cases h
  · have heq := equation_of_onCurve hcurve
    rw [WeierstrassCurve.Affine.equation_iff] at heq
    simp only [Wcurve] at heq
    rw [hy] at heq
    push_cast at heq
    exact cubic_no_root (P.x : Fp) (by linear_combination -heq)

end ECC

namespace ECC

/-! ### Simulation helpers: casts of the concrete formulas into `Fp` -/

theorem intCast_ne_zero_of_range {y : Int} (h0 : 0 < y) (hp : y < (curve_p : Int)) :
    (y : Fp) ≠ 0 := by
  intro h
  rw [ZMod.intCast_zmod_eq_zero_iff_dvd] at h
  have := Int.le_of_dvd h0 h
  omega

/-- A successful `inverse` call is the field inverse, after casting. -/
theorem inverse_cast {t : Int} {v : Nat} (h : inverse t curve_p = some v) :
    ((v : Nat) : Fp) = ((t : Fp))⁻¹ := by
  obtain ⟨hvlt, hvmul⟩ := inverse_some_spec curve_p_one_lt h
  have hcast := congrArg (fun n : Int => (n : Fp)) hvmul
  simp only [castInt_emod] at hcast
  push_cast at hcast
  exact eq_inv_of_mul_eq_one_right (by linear_combination hcast)

/-- `inverse` succeeds on any value that is non-zero in the field. -/
theorem inverse_isSome_of_ne_zero {t : Int} (h : (t : Fp) ≠ 0) :
    ∃ v, inverse t curve_p = some v := by
  cases hc : inverse t curve_p with
  | some v => exact ⟨v, rfl⟩
  | none =>
    exfalso
    apply (inverse_none_iff curve_p_one_lt).mp hc
    refine ⟨((t : Fp)⁻¹).val, ?_⟩
    have hfe : (t : Fp) * ((t : Fp)⁻¹) = 1 := mul_inv_cancel₀ h
    have hval : ((((t : Fp)⁻¹).val : Nat) : Fp) = (t : Fp)⁻¹ := by
      haveI : NeZero curve_p := ⟨by decide⟩
      exact ZMod.natCast_zmod_val _
    have hcast : ((t * (((t : Fp)⁻¹).val : Nat) : Int) : Fp) = ((1 : Int) : Fp) := by
      push_cast
      rw [hval, hfe]
    rw [ZMod.intCast_eq_intCast_iff'] at hcast
    rw [show ((1 : Int) % (curve_p : Int)) = 1 from
      Int.emod_eq_of_lt (by norm_num) (by exact_mod_cast curve_p_one_lt)] at hcast
    exact hcast

/-- The normalisation loop is invisible after casting. -/
theorem whileAddP_cast (x : Int) :
    ((whileAddP (normFuel x) x : Int) : Fp) = (x : Fp) := by
  rw [← castInt_emod (whileAddP (normFuel x) x), whileAddP_emod, castInt_emod]

theorem point_some_ext {x1 y1 x2 y2 : Fp} (h1 : Wcurve.Nonsingular x1 y1)
    (h2 : Wcurve.Nonsingular x2 y2) (hx : x1 = x2) (hy : y1 = y2) :
    WeierstrassCurve.Affine.Point.some h1 = WeierstrassCurve.Affine.Point.some h2 := by
  subst hx
  subst hy
  rfl

theorem is_inf_false_iff {P : EccPoint} :
    is_point_at_infinity P = false ↔ ¬(P.x = 0 ∧ P.y = 0) := by
  simp [is_point_at_infinity]

theorem onCurve_not_sentinel {R : EccPoint} (h : OnCurveEq R)
    (hx : R.x = 0) (hy : R.y = 0) : False := by
  have hR : R = ⟨0, 0⟩ := by
    obtain ⟨x, y⟩ := R
    simp only at hx hy
    rw [hx, hy]
  rw [hR] at h
  exact absurd h (by decide)

theorem toW_inf {P : EccPoint} {h : Valid P} (hinf : is_point_at_infinity P = true) :
    toW P h = 0 := dif_pos hinf

theorem toW_some {P : EccPoint} {h : Valid P} (hinf : ¬ is_point_at_infinity P = true) :
    toW P h = WeierstrassCurve.Affine.Point.some (nonsingular_of_valid h hinf) :=
  dif_neg hinf

/-- `toW` does not depend on the validity proof. -/
theorem toW_irrel {P : EccPoint} (h1 h2 : Valid P) : toW P h1 = toW P h2 := rfl

theorem Rep.functional {P : EccPoint} {A B : Wcurve.Point}
    (hA : Rep P A) (hB : Rep P B) : A = B := by
  obtain ⟨h1, rfl⟩ := hA
  obtain ⟨h2, rfl⟩ := hB
  exact toW_irrel h1 h2

/-- A convenient introduction rule for `Rep` at an affine point. -/
theorem rep_some {R : EccPoint} (hrange : inRange R)
    {x y : Fp} (hns : Wcurve.Nonsingular x y)
    (hx : (R.x : Fp) = x) (hy : (R.y : Fp) = y) :
    Rep R (WeierstrassCurve.Affine.Point.some hns) := by
  have heq : Wcurve.Equation (R.x : Fp) (R.y : Fp) := by
    rw [hx, hy]
    exact hns.1
  have hcurve : OnCurveEq R := by
    have := onCurve_of_equation (x := R.x) (y := R.y) heq
    obtain ⟨a, c⟩ := R
    exact this
  have hval : Valid R := Or.inr ⟨hrange, hcurve⟩
  have hinf : ¬ is_point_at_infinity R = true := by
    rw [Bool.not_eq_true, is_inf_false_iff]
    intro ⟨h1, h2⟩
    exact onCurve_not_sentinel hcurve h1 h2
  refine ⟨hval, ?_⟩
  rw [toW_some hinf]
  exact point_some_ext _ _ hx hy

/-- Extract the range and curve facts of a valid non-infinity point. -/
theorem valid_affine {P : EccPoint} (h : Valid P)
    (hinf : ¬ is_point_at_infinity P = true) : inRange P ∧ OnCurveEq P := by
  rcases h with h | h
  · exact absurd h hinf
  · exact h

end ECC

namespace ECC

/-- Tangent slope of a curve with `a1 = a2 = a3 = 0`, `a4 = -3`, proved over an
abstract field so all rewriting happens away from the concrete modulus. -/
theorem slope_double_abstract {F : Type} [Field F] (W : WeierstrassCurve.Affine F)
    (h1 : W.a₁ = 0) (h2 : W.a₂ = 0) (h3 : W.a₃ = 0) (h4 : W.a₄ = -3) (x y : F)
    (hnegY : y ≠ W.negY x y) :
    W.slope x x y y = (3 * x ^ 2 - 3) / (2 * y) := by
  have h := @WeierstrassCurve.Affine.slope_of_Y_ne F _ W x x y y rfl hnegY
  refine h.trans ?_
  rw [WeierstrassCurve.Affine.negY] at *
  rw [h1, h2, h3, h4]
  rw [h1, h3] at hnegY
  congr 1
  ring
  ring

/-- `addX` with `a1 = a2 = 0`, over an abstract field. -/
theorem addX_double_abstract {F : Type} [Field F] (W : WeierstrassCurve.Affine F)
    (h1 : W.a₁ = 0) (h2 : W.a₂ = 0) (x1 x2 L : F) :
    W.addX x1 x2 L = L ^ 2 - x1 - x2 := by
  rw [WeierstrassCurve.Affine.addX, h1, h2]
  ring

/-- `addY` with `a1 = a3 = 0`, over an abstract field. -/
theorem addY_double_abstract {F : Type} [Field F] (W : WeierstrassCurve.Affine F)
    (h1 : W.a₁ = 0) (h3 : W.a₃ = 0) (x1 x2 y1 L : F) :
    W.addY x1 x2 y1 L = (x1 - W.addX x1 x2 L) * L - y1 := by
  rw [WeierstrassCurve.Affine.addY, WeierstrassCurve.Affine.negY,
    WeierstrassCurve.Affine.negAddY, h1, h3]
  ring

/-- The shape of a successful `double` in the tangent case. -/
theorem double_eq_of {P : EccPoint} {v : Nat} (hy : ¬(P.y == 0) = true)
    (hv : inverse (P.y * 2) curve_p = some v) (c x3 y3 : Int)
    (hc : c = ((P.x ^ 2 % (curve_p : Int)) * 3 - 3) * (v : Int) % (curve_p : Int))
    (hx3 : x3 = whileAddP (normFuel (c ^ 2 % (curve_p : Int) - P.x - P.x))
      (c ^ 2 % (curve_p : Int) - P.x - P.x))
    (hy3 : y3 = ((P.x - x3) * c - P.y) % (curve_p : Int)) :
    double P = .ok ⟨x3, y3⟩ := by
  subst hc
  subst hx3
  subst hy3
  unfold double
  rw [if_neg hy, hv]

set_option maxRecDepth 100000 in
/-- Simulation of `double`: on a represented point it succeeds and represents
the doubled abstract point. -/
theorem Rep.doubleStep {P : EccPoint} {A : Wcurve.Point} (h : Rep P A) :
    ∃ R, double P = .ok R ∧ Rep R (A + A) := by
  obtain ⟨hP, rfl⟩ := h
  by_cases hinf : is_point_at_infinity P = true
  · obtain ⟨hx0, hy0⟩ := is_inf_iff.mp hinf
    refine ⟨point_at_infinity, ?_, ?_⟩
    · unfold double
      rw [hy0]
      rfl
    · rw [toW_inf hinf]
      simpa using Rep.infinity
  · obtain ⟨hrange, hcurve⟩ := valid_affine hP hinf
    have hinfF : is_point_at_infinity P = false := by
      revert hinf
      cases is_point_at_infinity P <;> simp
    have hy0 : P.y ≠ 0 := no_two_torsion hP hinfF
    obtain ⟨hax0, haxp, hay0, hayp⟩ := hrange
    have hyF : (P.y : Fp) ≠ 0 :=
      intCast_ne_zero_of_range (lt_of_le_of_ne hay0 (Ne.symm hy0)) hayp
    have hden : ((P.y * 2 : Int) : Fp) ≠ 0 := by
      push_cast
      exact mul_ne_zero hyF two_ne_zero_fp
    obtain ⟨v, hv⟩ := inverse_isSome_of_ne_zero hden
    have hns := nonsingular_of_valid hP hinf
    have hnegY : (P.y : Fp) ≠ Wcurve.negY (P.x : Fp) (P.y : Fp) := by
      simp only [WeierstrassCurve.Affine.negY, Wcurve]
      intro hcon
      have h2y : (2 : Fp) * (P.y : Fp) = 0 := by linear_combination hcon
      rcases mul_eq_zero.mp h2y with hcc | hcc
      · exact two_ne_zero_fp hcc
      · exact hyF hcc
    -- concrete result coordinates
    set c : Int := ((P.x ^ 2 % (curve_p : Int)) * 3 - 3) * (v : Int) % (curve_p : Int)
      with hcdef
    set x3 : Int := whileAddP (normFuel (c ^ 2 % (curve_p : Int) - P.x - P.x))
      (c ^ 2 % (curve_p : Int) - P.x - P.x) with hx3def
    set y3 : Int := ((P.x - x3) * c - P.y) % (curve_p : Int) with hy3def
    have hdone : double P = .ok ⟨x3, y3⟩ :=
      double_eq_of (by simp [hy0]) hv c x3 y3 hcdef hx3def hy3def
    -- the slope
    have hslope : Wcurve.slope (P.x : Fp) (P.x : Fp) (P.y : Fp) (P.y : Fp) =
        (3 * (P.x : Fp) ^ 2 - 3) / (2 * (P.y : Fp)) :=
      slope_double_abstract Wcurve rfl rfl rfl rfl _ _ hnegY
    have hd2 : ((P.y * 2 : Int) : Fp) = 2 * (P.y : Fp) := by
      push_cast
      ring
    have hcommon : ((c : Int) : Fp) =
        Wcurve.slope (P.x : Fp) (P.x : Fp) (P.y : Fp) (P.y : Fp) := by
      rw [hslope, hcdef]
      push_cast
      rw [inverse_cast hv, hd2, div_eq_mul_inv]
      ring
    have hx3cast : ((x3 : Int) : Fp) = Wcurve.addX (P.x : Fp) (P.x : Fp)
        (Wcurve.slope (P.x : Fp) (P.x : Fp) (P.y : Fp) (P.y : Fp)) := by
      rw [addX_double_abstract Wcurve rfl rfl, hx3def, whileAddP_cast]
      push_cast
      rw [hcommon]
    have hy3cast : ((y3 : Int) : Fp) = Wcurve.addY (P.x : Fp) (P.x : Fp) (P.y : Fp)
        (Wcurve.slope (P.x : Fp) (P.x : Fp) (P.y : Fp) (P.y : Fp)) := by
      rw [addY_double_abstract Wcurve rfl rfl, ← hx3cast, hy3def]
      push_cast
      rw [hcommon]
    -- ranges
    have hclt : c ^ 2 % (curve_p : Int) - P.x - P.x < (curve_p : Int) := by
      have := Int.emod_lt_of_pos (c ^ 2) curve_p_pos
      omega
    have hx3range := whileAddP_range hclt
    rw [← hx3def] at hx3range
    have hy3range : 0 ≤ y3 ∧ y3 < (curve_p : Int) := by
      rw [hy3def]
      exact ⟨Int.emod_nonneg _ (by have := curve_p_pos; omega),
        Int.emod_lt_of_pos _ curve_p_pos⟩
    refine ⟨⟨x3, y3⟩, hdone, ?_⟩
    rw [toW_some hinf, WeierstrassCurve.Affine.Point.add_self_of_Y_ne hnegY]
    exact rep_some ⟨hx3range.1, hx3range.2, hy3range.1, hy3range.2⟩
      (WeierstrassCurve.Affine.nonsingular_add hns hns (fun _ => hnegY))
      hx3cast hy3cast

/-- `negY` with `a1 = a3 = 0`, over an abstract field. -/
theorem negY_abstract {F : Type} [Field F] (W : WeierstrassCurve.Affine F)
    (h1 : W.a₁ = 0) (h3 : W.a₃ = 0) (x y : F) : W.negY x y = -y := by
  rw [WeierstrassCurve.Affine.negY, h1, h3]
  ring

/-- Casting injectivity on `[0, p)`, contrapositive form. -/
theorem castInt_ne {a c : Int} (ha : 0 ≤ a) (hap : a < (curve_p : Int))
    (hc : 0 ≤ c) (hcp : c < (curve_p : Int)) (h : a ≠ c) : (a : Fp) ≠ (c : Fp) :=
  fun hf => h (castInt_inj ha hap hc hcp hf)

/-- Simulation of `__neg__`: on a represented point it represents the abstract
negation. -/
theorem Rep.negStep {P : EccPoint} {A : Wcurve.Point} (h : Rep P A) :
    Rep (neg P) (-A) := by
  obtain ⟨hP, rfl⟩ := h
  by_cases hinf : is_point_at_infinity P = true
  · rw [toW_inf hinf, neg_zero]
    unfold neg
    rw [if_pos hinf]
    exact Rep.infinity
  · have hinfF : is_point_at_infinity P = false := by
      revert hinf
      cases is_point_at_infinity P <;> simp
    obtain ⟨hrange, hcurve⟩ := valid_affine hP hinf
    have hy0 : P.y ≠ 0 := no_two_torsion hP hinfF
    obtain ⟨hax0, haxp, hay0, hayp⟩ := hrange
    have hns := nonsingular_of_valid hP hinf
    rw [toW_some hinf, WeierstrassCurve.Affine.Point.neg_some]
    have hnegP : neg P = ⟨P.x, (curve_p : Int) - P.y⟩ := by
      unfold neg
      rw [if_neg hinf]
    rw [hnegP]
    have hr1 : (0 : Int) ≤ (curve_p : Int) - P.y := by omega
    have hr2 : (curve_p : Int) - P.y < (curve_p : Int) := by omega
    refine rep_some (R := ⟨P.x, (curve_p : Int) - P.y⟩) ⟨hax0, haxp, hr1, hr2⟩ _ rfl ?_
    show (((curve_p : Int) - P.y : Int) : Fp) = Wcurve.negY (P.x : Fp) (P.y : Fp)
    rw [negY_abstract Wcurve rfl rfl]
    push_cast
    rw [ZMod.natCast_self]
    ring

/-- The shape of a successful `add` in the chord case. -/
theorem add_eq_of {P Q : EccPoint} {v : Nat}
    (h1 : ¬ is_point_at_infinity P = true) (h2 : ¬ is_point_at_infinity Q = true)
    (h3 : ¬ P = Q) (h4 : ¬ (P.x == Q.x) = true)
    (hv : inverse (Q.x - P.x) curve_p = some v) (c x3 y3 : Int)
    (hc : c = (Q.y - P.y) * (v : Int) % (curve_p : Int))
    (hx3 : x3 = whileAddP (normFuel (c ^ 2 % (curve_p : Int) - P.x - Q.x))
      (c ^ 2 % (curve_p : Int) - P.x - Q.x))
    (hy3 : y3 = ((P.x - x3) * c - P.y) % (curve_p : Int)) :
    add P Q = .ok ⟨x3, y3⟩ := by
  subst hc
  subst hx3
  subst hy3
  unfold add
  rw [if_neg h1, if_neg h2, if_neg h3, if_neg h4, hv]

set_option maxRecDepth 100000 in
/-- Simulation of `add`: on two represented points it succeeds and represents
the abstract sum. -/
theorem Rep.addStep {P Q : EccPoint} {A B : Wcurve.Point}
    (hPA : Rep P A) (hQB : Rep Q B) :
    ∃ R, add P Q = .ok R ∧ Rep R (A + B) := by
  obtain ⟨hP, rfl⟩ := hPA
  by_cases hinfP : is_point_at_infinity P = true
  · refine ⟨copy Q, ?_, ?_⟩
    · unfold add
      rw [if_pos hinfP]
    · rw [toW_inf hinfP, zero_add]
      have hcopy : copy Q = Q := rfl
      rw [hcopy]
      exact hQB
  · obtain ⟨hQ, rfl⟩ := hQB
    by_cases hinfQ : is_point_at_infinity Q = true
    · refine ⟨copy P, ?_, ?_⟩
      · unfold add
        rw [if_neg hinfP, if_pos hinfQ]
      · rw [toW_inf hinfQ, add_zero]
        have hcopy : copy P = P := rfl
        rw [hcopy]
        exact ⟨hP, rfl⟩
    · by_cases h3 : P = Q
      · subst h3
        obtain ⟨R, hR, hrep⟩ := Rep.doubleStep ⟨hP, rfl⟩
        refine ⟨R, ?_, ?_⟩
        · unfold add
          rw [if_neg hinfP, if_neg hinfQ, if_pos rfl]
          exact hR
        · have hirr : toW P hQ = toW P hP := toW_irrel hQ hP
          rw [hirr]
          exact hrep
      · obtain ⟨hax0, haxp, hay0, hayp⟩ := (valid_affine hP hinfP).1
        obtain ⟨hbx0, hbxp, hby0, hbyp⟩ := (valid_affine hQ hinfQ).1
        have hnsP := nonsingular_of_valid hP hinfP
        have hnsQ := nonsingular_of_valid hQ hinfQ
        by_cases h4 : (P.x == Q.x) = true
        · have hxInt : P.x = Q.x := beq_iff_eq.mp h4
          have hxF : (P.x : Fp) = (Q.x : Fp) := by rw [hxInt]
          have hyF : (P.y : Fp) = Wcurve.negY (Q.x : Fp) (Q.y : Fp) := by
            rcases WeierstrassCurve.Affine.Y_eq_of_X_eq hnsP.1 hnsQ.1 hxF with hyy | hyy
            · exfalso
              have hyInt : P.y = Q.y := castInt_inj hay0 hayp hby0 hbyp hyy
              apply h3
              obtain ⟨a, b⟩ := P
              obtain ⟨a2, b2⟩ := Q
              simp only at hxInt hyInt
              rw [hxInt, hyInt]
            · exact hyy
          refine ⟨point_at_infinity, ?_, ?_⟩
          · unfold add
            rw [if_neg hinfP, if_neg hinfQ, if_neg h3, if_pos h4]
          · rw [toW_some hinfP, toW_some hinfQ,
              WeierstrassCurve.Affine.Point.add_of_Y_eq hxF hyF]
            exact Rep.infinity
        · have hxIntNe : P.x ≠ Q.x := fun hc => h4 (beq_iff_eq.mpr hc)
          have hxFne : (P.x : Fp) ≠ (Q.x : Fp) :=
            castInt_ne hax0 haxp hbx0 hbxp hxIntNe
          have hsub : ((Q.x - P.x : Int) : Fp) = (Q.x : Fp) - (P.x : Fp) := by
            push_cast
            ring
          have hden : ((Q.x - P.x : Int) : Fp) ≠ 0 := by
            rw [hsub]
            exact sub_ne_zero.mpr (Ne.symm hxFne)
          obtain ⟨v, hv⟩ := inverse_isSome_of_ne_zero hden
          set c : Int := (Q.y - P.y) * (v : Int) % (curve_p : Int) with hcdef
          set x3 : Int := whileAddP (normFuel (c ^ 2 % (curve_p : Int) - P.x - Q.x))
            (c ^ 2 % (curve_p : Int) - P.x - Q.x) with hx3def
          set y3 : Int := ((P.x - x3) * c - P.y) % (curve_p : Int) with hy3def
          have hdone : add P Q = .ok ⟨x3, y3⟩ :=
            add_eq_of hinfP hinfQ h3 h4 hv c x3 y3 hcdef hx3def hy3def
          have hslope : Wcurve.slope (P.x : Fp) (Q.x : Fp) (P.y : Fp) (Q.y : Fp) =
              ((P.y : Fp) - (Q.y : Fp)) / ((P.x : Fp) - (Q.x : Fp)) :=
            WeierstrassCurve.Affine.slope_of_X_ne hxFne
          have hcommon : ((c : Int) : Fp) =
              Wcurve.slope (P.x : Fp) (Q.x : Fp) (P.y : Fp) (Q.y : Fp) := by
            rw [hslope, hcdef]
            push_cast
            rw [inverse_cast hv, hsub, div_eq_mul_inv,
              show (P.y : Fp) - (Q.y : Fp) = -((Q.y : Fp) - (P.y : Fp)) from by ring,
              show (P.x : Fp) - (Q.x : Fp) = -((Q.x : Fp) - (P.x : Fp)) from by ring,
              inv_neg]
            ring
          have hx3cast : ((x3 : Int) : Fp) = Wcurve.addX (P.x : Fp) (Q.x : Fp)
              (Wcurve.slope (P.x : Fp) (Q.x : Fp) (P.y : Fp) (Q.y : Fp)) := by
            rw [addX_double_abstract Wcurve rfl rfl, hx3def, whileAddP_cast]
            push_cast
            rw [hcommon]
          have hy3cast : ((y3 : Int) : Fp) = Wcurve.addY (P.x : Fp) (Q.x : Fp) (P.y : Fp)
              (Wcurve.slope (P.x : Fp) (Q.x : Fp) (P.y : Fp) (Q.y : Fp)) := by
            rw [addY_double_abstract Wcurve rfl rfl, ← hx3cast, hy3def]
            push_cast
            rw [hcommon]
          have hclt : c ^ 2 % (curve_p : Int) - P.x - Q.x < (curve_p : Int) := by
            have := Int.emod_lt_of_pos (c ^ 2) curve_p_pos
            omega
          have hx3range := whileAddP_range hclt
          rw [← hx3def] at hx3range
          have hy3range : 0 ≤ y3 ∧ y3 < (curve_p : Int) := by
            rw [hy3def]
            exact ⟨Int.emod_nonneg _ (by have := curve_p_pos; omega),
              Int.emod_lt_of_pos _ curve_p_pos⟩
          refine ⟨⟨x3, y3⟩, hdone, ?_⟩
          rw [toW_some hinfP, toW_some hinfQ,
            WeierstrassCurve.Affine.Point.add_of_X_ne hxFne]
          exact rep_some ⟨hx3range.1, hx3range.2, hy3range.1, hy3range.2⟩
            (WeierstrassCurve.Affine.nonsingular_add hnsP hnsQ (fun h => (hxFne h).elim))
            hx3cast hy3cast

end ECC

namespace ECC

/-! ### Correctness of the width-4 NAF recoding -/

/-- The value of a digit list, least-significant digit first. -/
def nafValue : List Int → Int
  | [] => 0
  | d :: rest => d + 2 * nafValue rest

/-- Horner accumulation of a digit list, most-significant digit first,
starting from `v` (the value the main loop of `multiply` computes). -/
def msbValFrom : Int → List Int → Int
  | v, [] => v
  | v, d :: rest => msbValFrom (2 * v + d) rest

/-- The digit extracted by one iteration of the recoding loop. -/
def nafDigit (s : Nat) : Int :=
  if s % 2 = 1 then
    if 8 ≤ s &&& 15 then ((s &&& 15 : Nat) : Int) - 16 else ((s &&& 15 : Nat) : Int)
  else 0

/-- The next loop state after one iteration of the recoding loop. -/
def nafNext (s : Nat) : Nat := ((s : Int) - nafDigit s).toNat / 2

theorem and_fifteen (s : Nat) : s &&& 15 = s % 16 := by
  have h := Nat.and_pow_two_sub_one_eq_mod s 4
  norm_num at h
  exact h

theorem nafLoop_succ (f s : Nat) (hs : s ≠ 0) :
    nafLoop (f + 1) s = nafDigit s :: nafLoop f (nafNext s) := by
  rw [nafLoop, if_neg hs]
  rfl

/-- Every digit of the recoding is `0` or an odd digit in `[-7, 7]`. -/
theorem nafDigit_domain (s : Nat) :
    nafDigit s = 0 ∨ nafDigit s = 1 ∨ nafDigit s = 3 ∨ nafDigit s = 5 ∨
      nafDigit s = 7 ∨ nafDigit s = -1 ∨ nafDigit s = -3 ∨ nafDigit s = -5 ∨
      nafDigit s = -7 := by
  unfold nafDigit
  rw [and_fifteen]
  by_cases hpar : s % 2 = 1
  · rw [if_pos hpar]
    by_cases h8 : 8 ≤ s % 16
    · rw [if_pos h8]
      omega
    · rw [if_neg h8]
      omega
  · rw [if_neg hpar]
    omega

/-- One loop iteration preserves the value and strictly decreases the state. -/
theorem nafNext_spec (s : Nat) (hs : s ≠ 0) :
    (nafNext s : Int) * 2 + nafDigit s = (s : Int) ∧ nafNext s < s := by
  unfold nafNext nafDigit
  rw [and_fifteen]
  by_cases hpar : s % 2 = 1
  · rw [if_pos hpar]
    by_cases h8 : 8 ≤ s % 16
    · rw [if_pos h8]
      exact ⟨by omega, by omega⟩
    · rw [if_neg h8]
      exact ⟨by omega, by omega⟩
  · rw [if_neg hpar]
    exact ⟨by omega, by omega⟩

/-- With enough fuel the recoding recovers the scalar. -/
theorem nafLoop_value : ∀ (fuel s : Nat), s ≤ fuel →
    nafValue (nafLoop fuel s) = (s : Int) := by
  intro fuel
  induction fuel with
  | zero =>
    intro s h
    have hz : s = 0 := by omega
    subst hz
    simp [nafLoop, nafValue]
  | succ f ih =>
    intro s h
    by_cases hs : s = 0
    · subst hs
      simp [nafLoop, nafValue]
    · rw [nafLoop_succ f s hs]
      show nafDigit s + 2 * nafValue (nafLoop f (nafNext s)) = (s : Int)
      obtain ⟨hval, hlt⟩ := nafNext_spec s hs
      rw [ih (nafNext s) (by omega)]
      omega

/-- Digit-domain of the recoded list. -/
theorem nafLoop_digits : ∀ (fuel s : Nat), ∀ d ∈ nafLoop fuel s,
    d = 0 ∨ d = 1 ∨ d = 3 ∨ d = 5 ∨ d = 7 ∨
      d = -1 ∨ d = -3 ∨ d = -5 ∨ d = -7 := by
  intro fuel
  induction fuel with
  | zero =>
    intro s d hd
    simp [nafLoop] at hd
  | succ f ih =>
    intro s d hd
    by_cases hs : s = 0
    · subst hs
      simp [nafLoop] at hd
    · rw [nafLoop_succ f s hs] at hd
      rcases List.mem_cons.mp hd with hd1 | hd2
      · subst hd1
        exact nafDigit_domain s
      · exact ih _ d hd2

theorem msbValFrom_append_one : ∀ (l : List Int) (v d : Int),
    msbValFrom v (l ++ [d]) = 2 * msbValFrom v l + d := by
  intro l
  induction l with
  | nil =>
    intro v d
    rfl
  | cons e rest ih =>
    intro v d
    rw [List.cons_append]
    show msbValFrom (2 * v + e) (rest ++ [d]) = 2 * msbValFrom (2 * v + e) rest + d
    exact ih (2 * v + e) d

theorem msbValFrom_reverse : ∀ (l : List Int) (v : Int),
    msbValFrom v l.reverse = 2 ^ l.length * v + nafValue l := by
  intro l
  induction l with
  | nil =>
    intro v
    simp [msbValFrom, nafValue]
  | cons d rest ih =>
    intro v
    rw [List.reverse_cons, msbValFrom_append_one, ih v]
    show 2 * (2 ^ rest.length * v + nafValue rest) + d =
      2 ^ (rest.length + 1) * v + (d + 2 * nafValue rest)
    ring

end ECC

namespace ECC

/-- Simulation of the accumulation loop of `multiply`: given a table whose odd
entries represent `d · A`, folding the digit list starting from a point
representing `v · A` yields the Horner value of the digits. -/
theorem nafFold_rep {pre : List EccPoint} {A : Wcurve.Point}
    (t1 : Rep (pyIndex pre 1) ((1 : Int) • A))
    (t3 : Rep (pyIndex pre 3) ((3 : Int) • A))
    (t5 : Rep (pyIndex pre 5) ((5 : Int) • A))
    (t7 : Rep (pyIndex pre 7) ((7 : Int) • A))
    (u1 : Rep (pyIndex pre (-1)) ((-1 : Int) • A))
    (u3 : Rep (pyIndex pre (-3)) ((-3 : Int) • A))
    (u5 : Rep (pyIndex pre (-5)) ((-5 : Int) • A))
    (u7 : Rep (pyIndex pre (-7)) ((-7 : Int) • A)) :
    ∀ (ds : List Int) (v : Int) (acc : EccPoint),
      (∀ d ∈ ds, d = 0 ∨ d = 1 ∨ d = 3 ∨ d = 5 ∨ d = 7 ∨
        d = -1 ∨ d = -3 ∨ d = -5 ∨ d = -7) →
      Rep acc (v • A) →
      ∃ R, nafFold pre ds acc = .ok R ∧ Rep R (msbValFrom v ds • A) := by
  intro ds
  induction ds with
  | nil =>
    intro v acc hdom hacc
    exact ⟨acc, rfl, hacc⟩
  | cons d rest ih =>
    intro v acc hdom hacc
    obtain ⟨acc2, hacc2, hrep2⟩ := Rep.doubleStep hacc
    have hrep2d : Rep acc2 ((2 * v) • A) := by
      have h2 : (2 * v) • A = v • A + v • A := by
        rw [show 2 * v = v + v from by ring, add_zsmul]
      rw [h2]
      exact hrep2
    by_cases hd0 : d = 0
    · subst hd0
      obtain ⟨R, hfold, hrep⟩ := ih (2 * v) acc2
        (fun e he => hdom e (List.mem_cons_of_mem _ he)) hrep2d
      refine ⟨R, ?_, ?_⟩
      · rw [nafFold, hacc2, ok_bind,
          if_neg (show ¬((0 : Int) ≠ 0) from fun h => h rfl),
          show (pure acc2 : Except EccError EccPoint) = .ok acc2 from rfl, ok_bind]
        exact hfold
      · show Rep R (msbValFrom (2 * v + 0) rest • A)
        rw [add_zero]
        exact hrep
    · have htab : Rep (pyIndex pre d) (d • A) := by
        rcases hdom d (List.mem_cons_self d rest) with h | h | h | h | h | h | h | h | h
        · exact absurd h hd0
        · subst h; exact t1
        · subst h; exact t3
        · subst h; exact t5
        · subst h; exact t7
        · subst h; exact u1
        · subst h; exact u3
        · subst h; exact u5
        · subst h; exact u7
      obtain ⟨acc3, hacc3, hrep3⟩ := Rep.addStep hrep2d htab
      have hrep3d : Rep acc3 ((2 * v + d) • A) := by
        rw [add_zsmul]
        exact hrep3
      obtain ⟨R, hfold, hrep⟩ := ih (2 * v + d) acc3
        (fun e he => hdom e (List.mem_cons_of_mem _ he)) hrep3d
      refine ⟨R, ?_, ?_⟩
      · rw [nafFold, hacc2, ok_bind, if_pos hd0, hacc3, ok_bind]
        exact hfold
      · exact hrep

/-- Simulation of `precompute`: on a represented affine point the table is
built successfully and its odd (Python-)indices represent the odd multiples. -/
theorem precompute_rep {P : EccPoint} {A : Wcurve.Point} (hPA : Rep P A) :
    ∃ pre, precompute P = .ok pre ∧
      Rep (pyIndex pre 1) ((1 : Int) • A) ∧ Rep (pyIndex pre 3) ((3 : Int) • A) ∧
      Rep (pyIndex pre 5) ((5 : Int) • A) ∧ Rep (pyIndex pre 7) ((7 : Int) • A) ∧
      Rep (pyIndex pre (-1)) ((-1 : Int) • A) ∧ Rep (pyIndex pre (-3)) ((-3 : Int) • A) ∧
      Rep (pyIndex pre (-5)) ((-5 : Int) • A) ∧ Rep (pyIndex pre (-7)) ((-7 : Int) • A) := by
  obtain ⟨p2, hp2, hrep2⟩ := Rep.doubleStep hPA
  obtain ⟨p3, hp3, hrep3⟩ := Rep.addStep hrep2 hPA
  obtain ⟨p5, hp5, hrep5⟩ := Rep.addStep hrep2 hrep3
  obtain ⟨p7, hp7, hrep7⟩ := Rep.addStep hrep2 hrep5
  refine ⟨[point_at_infinity, P, p2, p3, point_at_infinity, p5, point_at_infinity, p7,
    neg p7, neg point_at_infinity, neg p5, neg point_at_infinity, neg p3, neg p2, neg P],
    ?_, ?_, ?_, ?_, ?_, ?_, ?_, ?_, ?_⟩
  · unfold precompute
    rw [hp2, ok_bind, hp3, ok_bind, hp5, ok_bind, hp7, ok_bind]
    rfl
  · show Rep P ((1 : Int) • A)
    rw [one_zsmul]
    exact hPA
  · show Rep p3 ((3 : Int) • A)
    have h : (3 : Int) • A = A + A + A := by
      rw [show (3 : Int) = 1 + 1 + 1 from by norm_num, add_zsmul, add_zsmul, one_zsmul]
    rw [h]
    exact hrep3
  · show Rep p5 ((5 : Int) • A)
    have h : (5 : Int) • A = A + A + (A + A + A) := by
      rw [show (5 : Int) = (1 + 1) + ((1 + 1) + 1) from by norm_num]
      rw [add_zsmul, add_zsmul, add_zsmul, add_zsmul, one_zsmul]
    rw [h]
    exact hrep5
  · show Rep p7 ((7 : Int) • A)
    have h : (7 : Int) • A = A + A + (A + A + (A + A + A)) := by
      rw [show (7 : Int) = (1 + 1) + ((1 + 1) + ((1 + 1) + 1)) from by norm_num]
      rw [add_zsmul, add_zsmul, add_zsmul, add_zsmul, add_zsmul, add_zsmul, one_zsmul]
    rw [h]
    exact hrep7
  · show Rep (neg P) ((-1 : Int) • A)
    have h : ((-1 : Int)) • A = -((1 : Int) • A) := by
      rw [neg_zsmul]
    rw [h, one_zsmul]
    exact Rep.negStep hPA
  · show Rep (neg p3) ((-3 : Int) • A)
    have h : ((-3 : Int)) • A = -((3 : Int) • A) := by
      rw [neg_zsmul]
    have h3 : (3 : Int) • A = A + A + A := by
      rw [show (3 : Int) = 1 + 1 + 1 from by norm_num, add_zsmul, add_zsmul, one_zsmul]
    rw [h, h3]
    exact Rep.negStep hrep3
  · show Rep (neg p5) ((-5 : Int) • A)
    have h : ((-5 : Int)) • A = -((5 : Int) • A) := by
      rw [neg_zsmul]
    have h5 : (5 : Int) • A = A + A + (A + A + A) := by
      rw [show (5 : Int) = (1 + 1) + ((1 + 1) + 1) from by norm_num]
      rw [add_zsmul, add_zsmul, add_zsmul, add_zsmul, one_zsmul]
    rw [h, h5]
    exact Rep.negStep hrep5
  · show Rep (neg p7) ((-7 : Int) • A)
    have h : ((-7 : Int)) • A = -((7 : Int) • A) := by
      rw [neg_zsmul]
    have h7 : (7 : Int) • A = A + A + (A + A + (A + A + A)) := by
      rw [show (7 : Int) = (1 + 1) + ((1 + 1) + ((1 + 1) + 1)) from by norm_num]
      rw [add_zsmul, add_zsmul, add_zsmul, add_zsmul, add_zsmul, add_zsmul, one_zsmul]
    rw [h, h7]
    exact Rep.negStep hrep7

/-- Simulation of the spec-side naive double-and-add. -/
theorem naiveDoubleAdd_rep {P : EccPoint} {A : Wcurve.Point} (hPA : Rep P A) :
    ∀ k : Nat, ∃ R, naiveDoubleAdd P k = .ok R ∧ Rep R (k • A) := by
  intro k
  induction k using Nat.strong_induction_on with
  | _ k ih =>
    by_cases hk : k = 0
    · subst hk
      refine ⟨point_at_infinity, ?_, ?_⟩
      · unfold naiveDoubleAdd
        rw [if_pos rfl]
      · rw [zero_nsmul]
        exact Rep.infinity
    · obtain ⟨r, hr, hrep⟩ :=
        ih (k / 2) (Nat.div_lt_self (Nat.pos_of_ne_zero hk) one_lt_two)
      obtain ⟨r2, hr2, hrep2⟩ := Rep.doubleStep hrep
      have hsplit : k • A = (k / 2) • A + (k / 2) • A + (k % 2) • A := by
        rw [← add_nsmul, ← add_nsmul]
        congr 1
        omega
      by_cases hodd : k % 2 = 1
      · obtain ⟨r3, hr3, hrep3⟩ := Rep.addStep hrep2 hPA
        refine ⟨r3, ?_, ?_⟩
        · unfold naiveDoubleAdd
          rw [if_neg hk, hr, ok_bind, hr2, ok_bind, if_pos hodd]
          exact hr3
        · rw [hsplit, hodd, one_nsmul]
          exact hrep3
      · refine ⟨r2, ?_, ?_⟩
        · unfold naiveDoubleAdd
          rw [if_neg hk, hr, ok_bind, hr2, ok_bind, if_neg hodd]
          rfl
        · rw [hsplit, show k % 2 = 0 from by omega, zero_nsmul, add_zero]
          exact hrep2

/-- Two concrete points representing the same abstract point are equal. -/
theorem Rep_inj {P Q : EccPoint} {A : Wcurve.Point}
    (h1 : Rep P A) (h2 : Rep Q A) : P = Q := by
  obtain ⟨hP, hPw⟩ := h1
  obtain ⟨hQ, hQw⟩ := h2
  by_cases hinfP : is_point_at_infinity P = true
  · rw [toW_inf hinfP] at hPw
    by_cases hinfQ : is_point_at_infinity Q = true
    · obtain ⟨h1x, h1y⟩ := is_inf_iff.mp hinfP
      obtain ⟨h2x, h2y⟩ := is_inf_iff.mp hinfQ
      obtain ⟨a, b⟩ := P
      obtain ⟨a2, b2⟩ := Q
      simp only at h1x h1y h2x h2y
      rw [h1x, h1y, h2x, h2y]
    · rw [toW_some hinfQ] at hQw
      rw [← hPw] at hQw
      exact absurd hQw (WeierstrassCurve.Affine.Point.some_ne_zero _)
  · rw [toW_some hinfP] at hPw
    by_cases hinfQ : is_point_at_infinity Q = true
    · rw [toW_inf hinfQ] at hQw
      rw [← hQw] at hPw
      exact absurd hPw (WeierstrassCurve.Affine.Point.some_ne_zero _)
    · rw [toW_some hinfQ] at hQw
      rw [← hQw] at hPw
      obtain ⟨hax0, haxp, hay0, hayp⟩ := (valid_affine hP hinfP).1
      obtain ⟨hbx0, hbxp, hby0, hbyp⟩ := (valid_affine hQ hinfQ).1
      injection hPw with hxF hyF
      have hx : P.x = Q.x := castInt_inj hax0 haxp hbx0 hbxp hxF
      have hy : P.y = Q.y := castInt_inj hay0 hayp hby0 hbyp hyF
      obtain ⟨a, b⟩ := P
      obtain ⟨a2, b2⟩ := Q
      simp only at hx hy
      rw [hx, hy]

end ECC

namespace ECC

set_option maxRecDepth 100000 in
/-- C1: for every non-negative integer scalar `k` and every valid point `P`,
`multiply` (the width-4 signed-window NAF algorithm with the precomputed table
of odd multiples) returns exactly the point computed by naive double-and-add
scalar multiplication of `P` by `k`. -/
theorem C1_multiply_eq_naive (P : EccPoint) (k : Int)
    (hP : Valid P) (hk : 0 ≤ k) :
    multiply P k = naiveDoubleAdd P k.toNat := by
  have hPA : Rep P (toW P hP) := ⟨hP, rfl⟩
  obtain ⟨Rn, hRn, hrepn⟩ := naiveDoubleAdd_rep hPA k.toNat
  by_cases hk0 : k = 0
  · subst hk0
    unfold multiply
    rw [if_neg (by omega : ¬(0 : Int) < 0),
      if_pos (show (((0 : Int) == 0) || is_point_at_infinity P) = true from by simp)]
    unfold naiveDoubleAdd
    rw [if_pos (show (0 : Int).toNat = 0 from rfl)]
  · by_cases hinf : is_point_at_infinity P = true
    · rw [hRn]
      have h0 : Rep Rn (0 : Wcurve.Point) := by
        rw [toW_inf hinf] at hrepn
        rwa [nsmul_zero] at hrepn
      rw [Rep_inj h0 Rep.infinity]
      unfold multiply
      rw [if_neg (by omega : ¬k < 0),
        if_pos (show ((k == 0) || is_point_at_infinity P) = true from by
          rw [hinf]
          simp)]
    · have hinfF : is_point_at_infinity P = false := by
        revert hinf
        cases is_point_at_infinity P <;> simp
      have hcond2 : ¬(((k == 0) || is_point_at_infinity P) = true) := by
        rw [hinfF, Bool.or_false]
        intro hc
        exact hk0 (beq_iff_eq.mp hc)
      by_cases hk1 : k = 1
      · subst hk1
        have h1 : Rep Rn (toW P hP) := by
          rw [show (1 : Int).toNat = 1 from rfl, one_nsmul] at hrepn
          exact hrepn
        unfold multiply
        rw [if_neg (by omega : ¬(1 : Int) < 0), if_neg hcond2,
          if_pos (show ((1 : Int) == 1) = true from by decide), hRn,
          Rep_inj h1 hPA]
        rfl
      · obtain ⟨pre, hpre, t1, t3, t5, t7, u1, u3, u5, u7⟩ := precompute_rep hPA
        have hdigits : ∀ d ∈ (nafLoop k.toNat k.toNat).reverse,
            d = 0 ∨ d = 1 ∨ d = 3 ∨ d = 5 ∨ d = 7 ∨
              d = -1 ∨ d = -3 ∨ d = -5 ∨ d = -7 :=
          fun d hd => nafLoop_digits k.toNat k.toNat d (List.mem_reverse.mp hd)
        have hz : Rep point_at_infinity ((0 : Int) • toW P hP) := by
          rw [zero_zsmul]
          exact Rep.infinity
        obtain ⟨R, hfold, hrep⟩ := nafFold_rep t1 t3 t5 t7 u1 u3 u5 u7
          ((nafLoop k.toNat k.toNat).reverse) 0 point_at_infinity hdigits hz
        have hval : msbValFrom 0 (nafLoop k.toNat k.toNat).reverse = (k.toNat : Int) := by
          rw [msbValFrom_reverse, nafLoop_value k.toNat k.toNat le_rfl]
          ring
        rw [hval] at hrep
        have hrepR : Rep R (k.toNat • toW P hP) := by
          rwa [natCast_zsmul] at hrep
        have hRR : R = Rn := Rep_inj hrepR hrepn
        unfold multiply
        rw [if_neg (by omega : ¬k < 0), if_neg hcond2,
          if_neg (show ¬((k == 1) = true) from fun hc => hk1 (beq_iff_eq.mp hc))]
        show (precompute P >>= fun pre2 =>
          nafFold pre2 ((nafLoop k.toNat k.toNat).reverse) point_at_infinity) =
          naiveDoubleAdd P k.toNat
        rw [hpre, ok_bind, hfold, hRR, hRn]

/-- Witness for C1 at the base point and scalar 5. -/
theorem C1_multiply_eq_naive_witness :
    Valid curve_G ∧ (0 : Int) ≤ 5 ∧
      multiply curve_G 5 = naiveDoubleAdd curve_G (5 : Int).toNat :=
  ⟨by decide, by decide, C1_multiply_eq_naive curve_G 5 (by decide) (by decide)⟩

end ECC
